import Mathlib

/-!
# Concurrent cached file server: the cache store and the request path

A shallow embedding of `server.go`.

* Go `string` and `[]byte` values are byte sequences, `List UInt8`.
* A Go pointer `*[]byte` is an `Option (List UInt8)`; `none` is the nil pointer, and
  dereferencing it is a run-time panic.  Functions of the store that can panic return
  `Option`, with `none` standing for the panic; `getFile` returns an `Outcome`, which
  tells a panic from a loop that has not ended.
* The Go map `cache.table` is an association list whose keys are pairwise distinct; the
  map primitives (`mapLookup`, `mapDelete`, `mapAssign`, `mapLen`) are defined on it.
* Go's `for k := range m` visits the keys in an order the runtime chooses.  The order is
  an explicit argument `ord` of every function that runs the eviction loop: the loop
  visits the keys named by `ord` first, in that order, and then the remaining keys, so
  every visiting order is obtained from some `ord` and every `ord` gives a visiting order.
* Go `int` is modelled by `Int`.  The only arithmetic adds and subtracts lengths of byte
  slices held by the process (`cache.size` and `len(*cacheOp.data)`); these are bounded
  by the memory of the machine and never come near `2^63`, so no wrap-around is
  modelled.
* The package `userlib` is an external dependency; the members the server uses are the
  fields of `Userlib`.  `fmt.Sprintf` is an argument of `getCacheStatus`, and `http.Error`
  is modelled by what it writes: the status code and the message followed by a newline.
* Goroutines and channels are sequentialised: a message sent on an unbuffered channel is
  handled by its receiver before the sender continues, and one request is handled at a
  time.
-/

namespace CachedFileServer

/-- Go `string`: a sequence of bytes. -/
abbrev GoString := List UInt8

/-- The bytes of an ASCII literal. -/
def ascii (s : String) : GoString := s.toList.map (fun ch => UInt8.ofNat ch.toNat)

/-! ## Data model (`server.go` lines 83-146) -/

/-- Go `type cacheEntry struct`. -/
structure cacheEntry where
  filename : GoString
  data : Option (List UInt8)
  valid : Bool
  size : Int
  count : Int
deriving DecidableEq, Repr

/-- Go `type cache struct`: `table` is the map, `size` the size of all data in bytes. -/
structure cache where
  table : List (GoString × cacheEntry)
  size : Int
deriving DecidableEq, Repr

/-- Go `type cacheOp struct`; the entry sent on `readChan` is returned by the step
function instead. -/
structure cacheOp where
  op : Int
  filename : GoString
  data : Option (List UInt8)
deriving DecidableEq, Repr

def WRITE : Int := 0
def READ : Int := 1
def STATS : Int := 2

/-! ## Go map primitives on the association list -/

/-- The map index expression `entry, ok := m[k]`. -/
def mapLookup (k : GoString) : List (GoString × cacheEntry) → Option cacheEntry
  | [] => none
  | (k', e) :: t => if k' = k then some e else mapLookup k t

/-- The builtin `delete(m, k)`. -/
def mapDelete (k : GoString) (t : List (GoString × cacheEntry)) :
    List (GoString × cacheEntry) :=
  t.filter (fun p => decide (p.1 ≠ k))

/-- The map assignment `m[k] = e`. -/
def mapAssign (k : GoString) (e : cacheEntry) (t : List (GoString × cacheEntry)) :
    List (GoString × cacheEntry) :=
  (k, e) :: mapDelete k t

/-- The builtin `len(m)`. -/
def mapLen (t : List (GoString × cacheEntry)) : Int := t.length

/-- The keys of the map. -/
def mapKeys (t : List (GoString × cacheEntry)) : List GoString := t.map Prod.fst

/-- Keeps the first occurrence of every key. -/
def firstOccurrences : List GoString → List GoString
  | [] => []
  | k :: ks => k :: (firstOccurrences ks).filter (fun k' => decide (k' ≠ k))

/-- The sequence of keys a `range` over the map may produce: each key of the map once,
the ones named by `ord` first. -/
def rangeKeys (ord : List GoString) (t : List (GoString × cacheEntry)) : List GoString :=
  firstOccurrences (ord.filter (fun k => decide (k ∈ mapKeys t)) ++ mapKeys t)

/-- The expression `len(*p)`: `none` when `p` is nil. -/
def derefLen : Option (List UInt8) → Option Int
  | none => none
  | some d => some (d.length : Int)

/-! ## The store agent (`cacheMapOperator`, lines 172-226) -/

/-- The cache a fresh `cacheMapOperator` starts with (line 173). -/
def emptyCache : cache := ⟨[], 0⟩

/-- The eviction loop of lines 202-209 over the keys still to be produced.  A key that
has been deleted from the map before it is reached is not produced. -/
def evictLoop (capacity dataLen : Int) : List GoString → cache → Option cache
  | [], c => some c
  | k :: ks, c =>
    match mapLookup k c.table with
    | none => evictLoop capacity dataLen ks c
    | some delEntry =>
      if c.size + dataLen ≤ capacity then some c
      else
        match derefLen delEntry.data with
        | none => none
        | some n =>
          evictLoop capacity dataLen ks ⟨mapDelete delEntry.filename c.table, c.size - n⟩

/-- Lines 198-201: an entry already stored under the name is removed first. -/
def removeOld (filename : GoString) (c : cache) : Option cache :=
  match mapLookup filename c.table with
  | some entry =>
    match derefLen entry.data with
    | none => none
    | some n => some ⟨mapDelete filename c.table, c.size - n⟩
  | none => some c

/-- The `case WRITE` branch, lines 193-212. -/
def cacheWrite (capacity : Int) (ord : List GoString) (c : cache) (o : cacheOp) :
    Option cache :=
  match derefLen o.data with
  | none => none
  | some n =>
    if n > capacity then some c
    else
      match removeOld o.filename c with
      | none => none
      | some c1 =>
        match evictLoop capacity n (rangeKeys ord c1.table) c1 with
        | none => none
        | some c2 =>
          some ⟨mapAssign o.filename ⟨o.filename, o.data, true, -1, -1⟩ c2.table, c2.size + n⟩

/-- The `case READ` branch, lines 213-218: the entry sent on `readChan`. -/
def cacheRead (c : cache) (o : cacheOp) : cacheEntry :=
  match mapLookup o.filename c.table with
  | some entry => entry
  | none => ⟨[], none, false, -1, -1⟩

/-- The `case STATS` branch, lines 219-222: the entry sent on `readChan`. -/
def cacheStats (c : cache) : cacheEntry :=
  ⟨[], none, false, c.size, mapLen c.table⟩

/-- One turn of the `for` loop of `cacheMapOperator` that receives `o` from
`cacheOpChan`: the cache afterwards and the entry sent on `o.readChan`, if any. -/
def cacheMapOperatorStep (capacity : Int) (ord : List GoString) (c : cache) (o : cacheOp) :
    Option (cache × Option cacheEntry) :=
  if o.op = WRITE then
    (cacheWrite capacity ord c o).map (fun c' => (c', none))
  else if o.op = READ then
    some (c, some (cacheRead c o))
  else if o.op = STATS then
    some (c, some (cacheStats c))
  else
    some (c, none)

/-- The operations the server sends on `cacheOpChan`: the write of line 244 (with the
visiting order of its eviction loop), the read of line 272 and the stats request of
line 285. -/
inductive StoreOp where
  | Write (name : GoString) (bytes : List UInt8) (ord : List GoString)
  | Read (name : GoString)
  | Stats
deriving DecidableEq, Repr

/-- The `cacheOp` record built at the call site. -/
def StoreOp.toCacheOp : StoreOp → cacheOp
  | .Write name bytes _ => ⟨WRITE, name, some bytes⟩
  | .Read name => ⟨READ, name, none⟩
  | .Stats => ⟨STATS, [], none⟩

/-- The visiting order that accompanies the operation. -/
def StoreOp.order : StoreOp → List GoString
  | .Write _ _ ord => ord
  | _ => []

/-- The store agent run on a sequence of operations, in arrival order. -/
def runStore (capacity : Int) : cache → List StoreOp → Option cache
  | c, [] => some c
  | c, o :: os =>
    match cacheMapOperatorStep capacity o.order c o.toCacheOp with
    | none => none
    | some (c', _) => runStore capacity c' os

/-- The sum of the lengths of the byte sequences of the entries of the map. -/
def totalLength (t : List (GoString × cacheEntry)) : Int :=
  (t.map (fun p => ((p.2.data.getD []).length : Int))).sum

/-! ## External package and configuration -/

/-- The members of the external package `userlib` that `server.go` uses.  `ReadFile`
returns the pair `(data, err)`, with `err = none` for a nil error.  An `error` value is
represented by its text. -/
structure Userlib where
  ReadFile : GoString → GoString → List UInt8 × Option GoString
  FILEERRORMSG : GoString
  TimeoutString : GoString
  CacheCloseMessage : GoString
  SUCCESSCODE : Int
  FILEERRORCODE : Int
  TIMEOUTERRORCODE : Int
  GetContentType : GoString → GoString
  CapacityString : GoString
  ContextType : GoString

/-- The global variables of lines 27-32 that the cache reads. -/
structure Config where
  capacity : Int
  timeout : Int
  workingDir : GoString

/-! ## Path sanitisation (`getFile`, lines 100-111) -/

/-- Go `strings.HasPrefix(s, pat)`. -/
def startsWith : GoString → GoString → Bool
  | _, [] => true
  | [], _ :: _ => false
  | b :: s, p :: pat => b == p && startsWith s pat

/-- Go `strings.Contains(s, substr)`. -/
def Contains : GoString → GoString → Bool
  | [], substr => startsWith [] substr
  | b :: s, substr => startsWith (b :: s) substr || Contains s substr

/-- The scan of `strings.Replace(s, old, new, -1)` for a non-empty `old`: `skip` counts
the bytes of a matched occurrence still to be passed over. -/
def replaceScan (old new : GoString) : Nat → GoString → GoString
  | _, [] => []
  | skip + 1, _ :: s => replaceScan old new skip s
  | 0, b :: s =>
    if startsWith (b :: s) old then new ++ replaceScan old new (old.length - 1) s
    else b :: replaceScan old new 0 s

/-- Go `strings.Replace(s, old, new, -1)` for a non-empty `old`: every non-overlapping
occurrence of `old`, found from left to right, is replaced by `new`. -/
def Replace (s old new : GoString) : GoString := replaceScan old new 0 s

/-- The loop condition of lines 101-103. -/
def needsPass (filename : GoString) : Bool :=
  Contains filename (ascii "/../") || Contains filename (ascii "\\/") ||
    Contains filename (ascii "//")

/-- The loop body, lines 104-106. -/
def replacePass (filename : GoString) : GoString :=
  Replace (Replace (Replace filename (ascii "/../") (ascii "/")) (ascii "\\/") (ascii "/"))
    (ascii "//") (ascii "/")

/-- The `for` loop of lines 101-107, run for at most `fuel` passes; `none` when the
condition still holds after `fuel` passes. -/
def sanitizeLoop : Nat → GoString → Option GoString
  | 0, filename => if needsPass filename then none else some filename
  | fuel + 1, filename =>
    if needsPass filename then sanitizeLoop fuel (replacePass filename) else some filename

/-- The outcome of running a piece of the server. -/
inductive Outcome (α : Type) where
  | done (a : α)
  | panicked
  | diverged
deriving DecidableEq, Repr

/-- Lines 101-111: the filename `getFile` puts in the request.  Indexing the empty
string at line 108 is a run-time panic.  Every pass of the loop shortens the name, so
`len(filename)` passes are allowed for. -/
def sanitize (filename : GoString) : Outcome GoString :=
  match sanitizeLoop filename.length filename with
  | none => .diverged
  | some reduced =>
    match reduced.getLast? with
    | none => .panicked
    | some last =>
      let named := if last = 47 then reduced ++ ascii "index.html" else reduced
      .done (ascii "./" ++ named.drop 1)

/-! ## The coordinator and the miss reader (lines 83-93, 234-303) -/

/-- Go `type fileResponse struct`, without the channel; `responseError = none` is the nil
error. -/
structure fileResponse where
  filename : GoString
  responseData : Option (List UInt8)
  responseError : Option GoString
deriving DecidableEq, Repr

/-- Go `type fileRequest struct`, without the channel. -/
structure fileRequest where
  filename : GoString
deriving DecidableEq, Repr

/-- What handling one file request amounts to: the response received on the request's
channel, the cache at the moment the response is received, the cache once the miss
reader (if any) has finished, and the names passed to `userlib.ReadFile`. -/
structure Handled where
  response : fileResponse
  cacheAtReply : cache
  cache : cache
  reads : List GoString
deriving DecidableEq, Repr

/-- The miss reader `cacheMiss`, lines 234-259.  `deadlineFirst` tells which send on the
request's channel is received: the one of the reading goroutine (lines 241 and 245) or
the one of the deadline branch (line 255).  The reading goroutine runs to the end of its
read in both cases, and on success its write is taken by the store agent before it sends
its response. -/
def cacheMiss (u : Userlib) (cfg : Config) (ord : List GoString) (deadlineFirst : Bool)
    (c : cache) (fileReq : fileRequest) : Option Handled :=
  let timedOut : fileResponse := ⟨fileReq.filename, none, some u.TimeoutString⟩
  match u.ReadFile cfg.workingDir fileReq.filename with
  | (data, some _) =>
    let failed : fileResponse := ⟨fileReq.filename, some data, some u.FILEERRORMSG⟩
    some ⟨if deadlineFirst then timedOut else failed, c, c, [fileReq.filename]⟩
  | (data, none) =>
    match cacheMapOperatorStep cfg.capacity ord c ⟨WRITE, fileReq.filename, some data⟩ with
    | none => none
    | some (c', _) =>
      let ok : fileResponse := ⟨fileReq.filename, some data, none⟩
      some ⟨if deadlineFirst then timedOut else ok, if deadlineFirst then c else c', c',
        [fileReq.filename]⟩

/-- The `fileReq` branch of `operateCache`, lines 271-283: a read of the store, then
either the reply from the cache or a miss reader. -/
def operateCacheFile (u : Userlib) (cfg : Config) (ord : List GoString)
    (deadlineFirst : Bool) (c : cache) (fileReq : fileRequest) : Option Handled :=
  match cacheMapOperatorStep cfg.capacity ord c ⟨READ, fileReq.filename, none⟩ with
  | some (c1, some cacheEntry) =>
    if cacheEntry.valid then
      some ⟨⟨cacheEntry.filename, cacheEntry.data, none⟩, c1, c1, []⟩
    else cacheMiss u cfg ord deadlineFirst c1 fileReq
  | _ => none

/-- Go `getFile`, lines 100-114: sanitise the name, hand the request to the coordinator,
wait for the response. -/
def getFile (u : Userlib) (cfg : Config) (ord : List GoString) (deadlineFirst : Bool)
    (c : cache) (filename : GoString) : Outcome Handled :=
  match sanitize filename with
  | .diverged => .diverged
  | .panicked => .panicked
  | .done name =>
    match operateCacheFile u cfg ord deadlineFirst c ⟨name⟩ with
    | none => .panicked
    | some h => .done h

/-! ## The control plane (lines 151-166, 284-300) -/

/-- The `cacheReq` branch of `operateCache`, lines 284-288, as `getCacheStatus` sees it:
a stats request to the store, then the formatted answer.  `Sprintf` stands for
`fmt.Sprintf` of the standard library, applied to a format and three integers. -/
def getCacheStatus (Sprintf : GoString → Int → Int → Int → GoString) (u : Userlib)
    (cfg : Config) (ord : List GoString) (c : cache) : Option (cache × GoString) :=
  match cacheMapOperatorStep cfg.capacity ord c ⟨STATS, [], none⟩ with
  | some (c1, some entry) =>
    some (c1, Sprintf u.CapacityString entry.count entry.size cfg.capacity)
  | _ => none

/-- Go `cacheClear`, lines 161-166, with the `cacheClose` branch of `operateCache`, lines
289-300: the store agent is stopped and its cache is dropped; the `operateCache` started
at line 164 starts a new store agent, whose cache is the one of line 173.  The result is
the cache of the new agent and the message returned. -/
def cacheClear (u : Userlib) (_old : cache) : cache × GoString :=
  (emptyCache, u.CacheCloseMessage)

/-! ## Notions used to state properties of the sanitiser -/

/-- The three patterns the loop body replaces by `/`. -/
def rulePatterns : List GoString := [ascii "/../", ascii "\\/", ascii "//"]

/-- One occurrence of one of the patterns is replaced by `/`. -/
inductive Step : GoString → GoString → Prop where
  | replace (u old v : GoString) (h : old ∈ rulePatterns) :
      Step (u ++ old ++ v) (u ++ ascii "/" ++ v)

/-- The `/`-delimited segments of a path. -/
def segments : GoString → List GoString
  | [] => [[]]
  | b :: s =>
    if b = 47 then [] :: segments s
    else
      match segments s with
      | [] => [[b]]
      | seg :: segs => (b :: seg) :: segs

/-! ## The HTTP handler (lines 37-60) -/

/-- The `http.ResponseWriter` the handler writes to, as the test double
`ResponseWriterTester` records it: header fields, body written so far, status code. -/
structure ResponseWriter where
  header : List (GoString × GoString)
  data : List UInt8
  statusCode : Int
deriving DecidableEq, Repr

/-- Go `w.Header().Set(key, value)`. -/
def headerSet (key value : GoString) (h : List (GoString × GoString)) :
    List (GoString × GoString) :=
  (key, value) :: h.filter (fun p => decide (p.1 ≠ key))

/-- Go `w.Header().Get(key)`. -/
def headerGet (key : GoString) : List (GoString × GoString) → Option GoString
  | [] => none
  | (k, v) :: h => if k = key then some v else headerGet key h

/-- Go `http.Error(w, msg, code)` of the standard library: it sets the content type to
plain text, writes the status code and prints `msg` followed by a newline
(`fmt.Fprintln`), which is the body the tests expect (`server_test.go` lines 84 and 99). -/
def httpError (w : ResponseWriter) (msg : GoString) (code : Int) : ResponseWriter where
  header := headerSet (ascii "X-Content-Type-Options") (ascii "nosniff")
    (headerSet (ascii "Content-Type") (ascii "text/plain; charset=utf-8") w.header)
  data := w.data ++ msg ++ ascii "\n"
  statusCode := code

/-- Lines 42-59 of `handler`: what is written to `w` for the response `getFile`
returned.  Dereferencing a nil `responseData` at line 59 is a run-time panic. -/
def handlerReply (u : Userlib) (response : fileResponse) (w : ResponseWriter) :
    Option ResponseWriter :=
  match response.responseError with
  | some errStr =>
    if errStr = u.TimeoutString then some (httpError w errStr u.TIMEOUTERRORCODE)
    else some (httpError w errStr u.FILEERRORCODE)
  | none =>
    match response.responseData with
    | none => none
    | some bytes =>
      some ⟨headerSet u.ContextType (u.GetContentType response.filename) w.header,
        w.data ++ bytes, u.SUCCESSCODE⟩

/-- Go `handler`, lines 37-60: `getFile` on the URL path, then the reply. -/
def handler (u : Userlib) (cfg : Config) (ord : List GoString) (deadlineFirst : Bool)
    (c : cache) (path : GoString) (w : ResponseWriter) : Outcome (ResponseWriter × Handled) :=
  match getFile u cfg ord deadlineFirst c path with
  | .diverged => .diverged
  | .panicked => .panicked
  | .done h =>
    match handlerReply u h.response w with
    | none => .panicked
    | some w' => .done (w', h)

/-- The writer `genResponseTestWriter` of the tests starts from. -/
def emptyResponseWriter : ResponseWriter := ⟨[], [], 0⟩

/-! ## The eviction loop with a record of its removals -/

/-- The loop `evictLoop` of lines 202-209, recording for every removal the key visited
and the cache just before the removal. -/
def evictLoopLog (capacity dataLen : Int) :
    List GoString → cache → Option (List (GoString × cache) × cache)
  | [], c => some ([], c)
  | k :: ks, c =>
    match mapLookup k c.table with
    | none => evictLoopLog capacity dataLen ks c
    | some delEntry =>
      if c.size + dataLen ≤ capacity then some ([], c)
      else
        match derefLen delEntry.data with
        | none => none
        | some n =>
          match evictLoopLog capacity dataLen ks
              ⟨mapDelete delEntry.filename c.table, c.size - n⟩ with
          | none => none
          | some (log, c') => some ((k, c) :: log, c')

/-- The writes of a list of `(name, bytes, visiting order)` triples. -/
def writesOf (ws : List (GoString × List UInt8 × List GoString)) : List StoreOp :=
  ws.map (fun w => StoreOp.Write w.1 w.2.1 w.2.2)

/-! ## Concrete instances, after the test-suite -/

/-- A `userlib` whose `ReadFile` is the stub of the tests: fixed contents for three
names, an error for a fourth. -/
def testUserlib : Userlib where
  ReadFile := fun _ filename =>
    if filename = ascii "./README.md" then
      (ascii "CS61C is the best class in the world! Emperor Nick shall reign supreme.", none)
    else if filename = ascii "./largefile.61c" then
      (ascii "I am very many bytes of data!", none)
    else if filename = ascii "./IDONTEXIST.txt" then
      (ascii "CS61C is the worst class ever!", some (ascii "the file does not exist"))
    else (ascii "BAD NAME", none)
  FILEERRORMSG := ascii "file error"
  TimeoutString := ascii "timeout"
  CacheCloseMessage := ascii "cache cleared"
  SUCCESSCODE := 200
  FILEERRORCODE := 404
  TIMEOUTERRORCODE := 408
  GetContentType := fun _ => ascii "text/plain"
  CapacityString :=
    ascii "%v items in the cache totaling [%v] bytes out of a maximum of %v bytes"
  ContextType := ascii "Content-Type"

/-- Capacity 1000, timeout 2, empty working directory (`TestSanityFileCheckSize`). -/
def testConfig : Config := ⟨1000, 2, []⟩

/-- Capacity five bytes short of the large file
(`TestExceedCapacityInsertFileLargerThanCache`). -/
def smallConfig : Config := ⟨24, 2, []⟩

/-- A store holding one two-byte entry under the name `a`. -/
def oneEntryCache : cache := ⟨[(ascii "a", ⟨ascii "a", some [1, 2], true, -1, -1⟩)], 2⟩

/-- The representation invariant of the store: distinct keys, each entry recorded under
its own filename, marked valid and with a non-nil data pointer, and `size` equal to the sum of the lengths
of the stored byte sequences. -/
structure WellFormed (c : cache) : Prop where
  nodup : (mapKeys c.table).Nodup
  keyed : ∀ p ∈ c.table, p.2.filename = p.1
  hasData : ∀ p ∈ c.table, p.2.data ≠ none
  valid : ∀ p ∈ c.table, p.2.valid = true
  acct : c.size = totalLength c.table

/-! ## Lemmas on the map primitives -/

theorem mapLookup_eq_none_iff (k : GoString) (t : List (GoString × cacheEntry)) :
    mapLookup k t = none ↔ k ∉ mapKeys t := by
  induction t with
  | nil => simp [mapLookup, mapKeys]
  | cons p t ih =>
    obtain ⟨k', e⟩ := p
    by_cases h : k' = k
    · simp [mapLookup, mapKeys, h]
    · have h' : ¬ k = k' := fun hk => h hk.symm
      simpa [mapLookup, mapKeys, h, h'] using ih

theorem mapLookup_mem {k : GoString} {t : List (GoString × cacheEntry)} {e : cacheEntry}
    (h : mapLookup k t = some e) : (k, e) ∈ t := by
  induction t with
  | nil => simp [mapLookup] at h
  | cons p t ih =>
    obtain ⟨k', e'⟩ := p
    by_cases hk : k' = k
    · simp [mapLookup, hk] at h
      simp [hk, h]
    · simp [mapLookup, hk] at h
      exact List.mem_cons_of_mem _ (ih h)

theorem mapLookup_cons_self (k : GoString) (e : cacheEntry)
    (t : List (GoString × cacheEntry)) : mapLookup k ((k, e) :: t) = some e := by
  simp [mapLookup]

theorem mapLookup_of_mem {t : List (GoString × cacheEntry)} (hn : (mapKeys t).Nodup)
    {k : GoString} {e : cacheEntry} (hmem : (k, e) ∈ t) : mapLookup k t = some e := by
  induction t with
  | nil => simp at hmem
  | cons p t ih =>
    obtain ⟨k', e'⟩ := p
    simp only [mapKeys, List.map_cons, List.nodup_cons] at hn
    rcases List.mem_cons.mp hmem with heq | hmem'
    · cases heq
      exact mapLookup_cons_self _ _ _
    · have hk : k' ≠ k := fun hk => hn.1 (hk ▸ List.mem_map_of_mem Prod.fst hmem')
      simp only [mapLookup, hk, if_false]
      exact ih hn.2 hmem'

theorem mapDelete_sublist (k : GoString) (t : List (GoString × cacheEntry)) :
    (mapDelete k t).Sublist t :=
  List.filter_sublist t

theorem mapKeys_sublist {t t' : List (GoString × cacheEntry)} (h : t'.Sublist t) :
    (mapKeys t').Sublist (mapKeys t) :=
  h.map Prod.fst

theorem mapLookup_mapDelete_self (k : GoString) (t : List (GoString × cacheEntry)) :
    mapLookup k (mapDelete k t) = none := by
  rw [mapLookup_eq_none_iff]
  simp [mapKeys, mapDelete, List.mem_filter]

theorem mapLookup_none_of_sublist {k : GoString} {t t' : List (GoString × cacheEntry)}
    (hs : t'.Sublist t) (h : mapLookup k t = none) : mapLookup k t' = none := by
  rw [mapLookup_eq_none_iff] at h ⊢
  exact fun hk => h ((mapKeys_sublist hs).subset hk)

theorem mapDelete_of_not_mem {k : GoString} {t : List (GoString × cacheEntry)}
    (h : k ∉ mapKeys t) : mapDelete k t = t := by
  unfold mapDelete
  rw [List.filter_eq_self]
  intro p hp
  have : p.1 ≠ k := fun hk => h (hk ▸ List.mem_map_of_mem Prod.fst hp)
  simpa using this

theorem mapDelete_cons_self {k : GoString} (e : cacheEntry)
    {t : List (GoString × cacheEntry)} (h : k ∉ mapKeys t) :
    mapDelete k ((k, e) :: t) = t := by
  have : mapDelete k ((k, e) :: t) = mapDelete k t := by simp [mapDelete]
  rw [this, mapDelete_of_not_mem h]

theorem totalLength_mapDelete {k : GoString} {t : List (GoString × cacheEntry)}
    {e : cacheEntry} {d : List UInt8} (hn : (mapKeys t).Nodup)
    (hl : mapLookup k t = some e) (hd : e.data = some d) :
    totalLength (mapDelete k t) = totalLength t - d.length := by
  induction t with
  | nil => simp [mapLookup] at hl
  | cons p t ih =>
    obtain ⟨k', e'⟩ := p
    simp only [mapKeys, List.map_cons, List.nodup_cons] at hn
    by_cases hk : k' = k
    · subst hk
      simp only [mapLookup, if_true, Option.some.injEq] at hl
      subst hl
      have hnot : k' ∉ mapKeys t := hn.1
      have htail : mapDelete k' t = t := mapDelete_of_not_mem hnot
      have : mapDelete k' ((k', e') :: t) = mapDelete k' t := by
        simp [mapDelete]
      rw [this, htail]
      simp [totalLength, hd]
    · simp only [mapLookup, hk, if_false] at hl
      have : mapDelete k ((k', e') :: t) = (k', e') :: mapDelete k t := by
        simp [mapDelete, hk]
      rw [this]
      have ih' := ih hn.2 hl
      simp only [totalLength, List.map_cons, List.sum_cons] at ih' ⊢
      rw [ih']
      ring

theorem totalLength_nonneg (t : List (GoString × cacheEntry)) : 0 ≤ totalLength t := by
  induction t with
  | nil => simp [totalLength]
  | cons p t ih =>
    simp only [totalLength, List.map_cons, List.sum_cons] at ih ⊢
    have : (0 : Int) ≤ ((p.2.data.getD []).length : Int) := Int.ofNat_nonneg _
    omega

theorem mem_firstOccurrences (k : GoString) (l : List GoString) :
    k ∈ firstOccurrences l ↔ k ∈ l := by
  induction l with
  | nil => simp [firstOccurrences]
  | cons a l ih =>
    simp only [firstOccurrences, List.mem_cons, List.mem_filter, ih]
    by_cases h : k = a
    · simp [h]
    · simp [h]

theorem mem_rangeKeys {k : GoString} {ord : List GoString}
    {t : List (GoString × cacheEntry)} (h : k ∈ mapKeys t) : k ∈ rangeKeys ord t := by
  unfold rangeKeys
  rw [mem_firstOccurrences]
  exact List.mem_append_right _ h

/-! ## The store invariant is kept by every operation -/

theorem wellFormed_emptyCache : WellFormed emptyCache :=
  ⟨by simp [emptyCache, mapKeys], by simp [emptyCache], by simp [emptyCache],
    by simp [emptyCache], by simp [emptyCache, totalLength]⟩

theorem wellFormed_oneEntryCache : WellFormed oneEntryCache :=
  ⟨by decide, by decide, by decide, by decide, by decide⟩

theorem WellFormed.delete {c : cache} (h : WellFormed c) {k : GoString} {e : cacheEntry}
    {d : List UInt8} (hl : mapLookup k c.table = some e) (hd : e.data = some d) :
    WellFormed ⟨mapDelete k c.table, c.size - d.length⟩ where
  nodup := (mapKeys_sublist (mapDelete_sublist k c.table)).nodup h.nodup
  keyed := fun p hp => h.keyed p ((mapDelete_sublist k c.table).subset hp)
  hasData := fun p hp => h.hasData p ((mapDelete_sublist k c.table).subset hp)
  valid := fun p hp => h.valid p ((mapDelete_sublist k c.table).subset hp)
  acct := by
    show c.size - d.length = totalLength (mapDelete k c.table)
    rw [totalLength_mapDelete h.nodup hl hd, h.acct]

theorem WellFormed.insert {c2 : cache} (h : WellFormed c2) {name : GoString}
    (bytes : List UInt8) (hnot : name ∉ mapKeys c2.table) :
    WellFormed ⟨(name, ⟨name, some bytes, true, -1, -1⟩) :: c2.table,
      c2.size + bytes.length⟩ where
  nodup := by
    simp only [mapKeys, List.map_cons, List.nodup_cons]
    exact ⟨hnot, h.nodup⟩
  keyed := by
    intro p hp
    rcases List.mem_cons.mp hp with rfl | hp
    · rfl
    · exact h.keyed p hp
  hasData := by
    intro p hp
    rcases List.mem_cons.mp hp with rfl | hp
    · simp
    · exact h.hasData p hp
  valid := by
    intro p hp
    rcases List.mem_cons.mp hp with rfl | hp
    · rfl
    · exact h.valid p hp
  acct := by
    show c2.size + (bytes.length : Int) = totalLength (_ :: c2.table)
    rw [h.acct]
    simp [totalLength]
    ring

theorem evictLoop_spec (capacity n : Int) (ks : List GoString) (c : cache)
    (h : WellFormed c) :
    ∃ c', evictLoop capacity n ks c = some c' ∧ WellFormed c' ∧
      c'.table.Sublist c.table ∧
      (c'.size + n ≤ capacity ∨ ∀ k ∈ ks, mapLookup k c'.table = none) ∧
      (c.size + n ≤ capacity → c' = c) := by
  induction ks generalizing c with
  | nil => exact ⟨c, rfl, h, List.Sublist.refl _, Or.inr (by simp), fun _ => rfl⟩
  | cons k ks ih =>
    cases hl : mapLookup k c.table with
    | none =>
      obtain ⟨c', hrun, hwf, hsub, hend, hfit⟩ := ih c h
      refine ⟨c', by simp [evictLoop, hl, hrun], hwf, hsub, ?_, hfit⟩
      rcases hend with hle | hall
      · exact Or.inl hle
      · refine Or.inr fun k' hk' => ?_
        rcases List.mem_cons.mp hk' with rfl | hmem
        · exact mapLookup_none_of_sublist hsub hl
        · exact hall k' hmem
    | some delEntry =>
      by_cases hfits : c.size + n ≤ capacity
      · exact ⟨c, by simp [evictLoop, hl, hfits], h, List.Sublist.refl _, Or.inl hfits,
          fun _ => rfl⟩
      · have hmem := mapLookup_mem hl
        obtain ⟨d, hd⟩ : ∃ d, delEntry.data = some d :=
          Option.ne_none_iff_exists'.mp (h.hasData _ hmem)
        have hname : delEntry.filename = k := h.keyed _ hmem
        have hwf1 : WellFormed ⟨mapDelete k c.table, c.size - d.length⟩ := h.delete hl hd
        obtain ⟨c', hrun, hwf, hsub, hend, _⟩ := ih _ hwf1
        refine ⟨c', by simp [evictLoop, hl, hfits, hd, derefLen, hname, hrun], hwf,
          hsub.trans (mapDelete_sublist k c.table), ?_, fun hc => absurd hc hfits⟩
        rcases hend with hle | hall
        · exact Or.inl hle
        · refine Or.inr fun k' hk' => ?_
          rcases List.mem_cons.mp hk' with rfl | hmem'
          · exact mapLookup_none_of_sublist hsub (mapLookup_mapDelete_self _ _)
          · exact hall k' hmem'

theorem evictLoop_of_fits (capacity n : Int) (ks : List GoString) (c : cache)
    (hfits : c.size + n ≤ capacity) : evictLoop capacity n ks c = some c := by
  induction ks with
  | nil => rfl
  | cons k ks ih =>
    cases hl : mapLookup k c.table with
    | none => simp [evictLoop, hl, ih]
    | some delEntry => simp [evictLoop, hl, hfits]

theorem removeOld_spec (name : GoString) (c : cache) (h : WellFormed c) :
    ∃ c1, removeOld name c = some c1 ∧ WellFormed c1 ∧ c1.table = mapDelete name c.table ∧
      c1.size ≤ c.size := by
  cases hl : mapLookup name c.table with
  | none =>
    refine ⟨c, by simp [removeOld, hl], h, ?_, le_refl _⟩
    exact (mapDelete_of_not_mem ((mapLookup_eq_none_iff _ _).mp hl)).symm
  | some entry =>
    obtain ⟨d, hd⟩ : ∃ d, entry.data = some d :=
      Option.ne_none_iff_exists'.mp (h.hasData _ (mapLookup_mem hl))
    refine ⟨⟨mapDelete name c.table, c.size - d.length⟩, by simp [removeOld, hl, hd, derefLen],
      h.delete hl hd, rfl, ?_⟩
    show c.size - (d.length : Int) ≤ c.size
    have : (0 : Int) ≤ (d.length : Int) := Int.ofNat_nonneg _
    omega

theorem cacheWrite_spec (capacity : Int) (ord : List GoString) (c : cache)
    (h : WellFormed c) (op : Int) (name : GoString) (bytes : List UInt8)
    (hfit : (bytes.length : Int) ≤ capacity) :
    ∃ c2, cacheWrite capacity ord c ⟨op, name, some bytes⟩ =
        some ⟨(name, ⟨name, some bytes, true, -1, -1⟩) :: c2.table, c2.size + bytes.length⟩ ∧
      WellFormed c2 ∧ c2.table.Sublist (mapDelete name c.table) ∧
      c2.size + bytes.length ≤ capacity ∧ name ∉ mapKeys c2.table := by
  obtain ⟨c1, hrem, hwf1, htab1, _⟩ := removeOld_spec name c h
  obtain ⟨c2, hrun, hwf2, hsub, hend, _⟩ :=
    evictLoop_spec capacity bytes.length (rangeKeys ord c1.table) c1 hwf1
  have hnot : name ∉ mapKeys c2.table := by
    have h0 : mapLookup name c1.table = none := by
      rw [htab1]; exact mapLookup_mapDelete_self _ _
    exact (mapLookup_eq_none_iff _ _).mp (mapLookup_none_of_sublist hsub h0)
  have hbound : c2.size + bytes.length ≤ capacity := by
    rcases hend with hle | hall
    · exact hle
    · have hempty : c2.table = [] := by
        cases hc : c2.table with
        | nil => rfl
        | cons p t =>
          exfalso
          have hp : p ∈ c2.table := by simp [hc]
          have hk1 : p.1 ∈ mapKeys c1.table :=
            List.mem_map_of_mem Prod.fst (hsub.subset hp)
          have hk2 : p.1 ∈ mapKeys c2.table := List.mem_map_of_mem Prod.fst hp
          exact (mapLookup_eq_none_iff _ _).mp (hall p.1 (mem_rangeKeys hk1)) hk2
      have hz : c2.size = 0 := by rw [hwf2.acct, hempty]; simp [totalLength]
      rw [hz]; simpa using hfit
  refine ⟨c2, ?_, hwf2, htab1 ▸ hsub, hbound, hnot⟩
  have hng : ¬ ((bytes.length : Int) > capacity) := not_lt.mpr hfit
  simp [cacheWrite, derefLen, hng, hrem, hrun, mapAssign, mapDelete_of_not_mem hnot]

theorem cacheWrite_dropped (capacity : Int) (ord : List GoString) (c : cache) (op : Int)
    (name : GoString) (bytes : List UInt8) (hbig : (bytes.length : Int) > capacity) :
    cacheWrite capacity ord c ⟨op, name, some bytes⟩ = some c := by
  simp [cacheWrite, derefLen, hbig]

theorem cacheWrite_of_fits (capacity : Int) (ord : List GoString) (c : cache) (op : Int)
    (name : GoString) (bytes : List UInt8) (hnew : name ∉ mapKeys c.table)
    (hsize : 0 ≤ c.size) (hfits : c.size + bytes.length ≤ capacity) :
    cacheWrite capacity ord c ⟨op, name, some bytes⟩ =
      some ⟨(name, ⟨name, some bytes, true, -1, -1⟩) :: c.table, c.size + bytes.length⟩ := by
  have hng : ¬ ((bytes.length : Int) > capacity) := by omega
  have hl : mapLookup name c.table = none := (mapLookup_eq_none_iff _ _).mpr hnew
  simp [cacheWrite, derefLen, hng, removeOld, hl, evictLoop_of_fits _ _ _ _ hfits,
    mapAssign, mapDelete_of_not_mem hnew]

theorem cacheWrite_again (capacity : Int) (ord : List GoString) (c2 : cache) (op : Int)
    (name : GoString) (bytes : List UInt8) (hnot : name ∉ mapKeys c2.table)
    (hbound : c2.size + bytes.length ≤ capacity)
    (hfit : (bytes.length : Int) ≤ capacity) :
    cacheWrite capacity ord
        ⟨(name, ⟨name, some bytes, true, -1, -1⟩) :: c2.table, c2.size + bytes.length⟩
        ⟨op, name, some bytes⟩ =
      some ⟨(name, ⟨name, some bytes, true, -1, -1⟩) :: c2.table,
        c2.size + bytes.length⟩ := by
  have hng : ¬ ((bytes.length : Int) > capacity) := not_lt.mpr hfit
  have hrem : removeOld name
      ⟨(name, ⟨name, some bytes, true, -1, -1⟩) :: c2.table, c2.size + bytes.length⟩ =
      some c2 := by
    simp [removeOld, mapLookup_cons_self, derefLen, mapDelete_cons_self _ hnot]
  simp [cacheWrite, derefLen, hng, hrem, evictLoop_of_fits _ _ _ _ hbound, mapAssign,
    mapDelete_of_not_mem hnot]

theorem cacheMapOperatorStep_write (capacity : Int) (ord : List GoString) (c : cache)
    (name : GoString) (data : Option (List UInt8)) :
    cacheMapOperatorStep capacity ord c ⟨WRITE, name, data⟩ =
      (cacheWrite capacity ord c ⟨WRITE, name, data⟩).map (fun c' => (c', none)) := by
  simp [cacheMapOperatorStep]

theorem cacheMapOperatorStep_read (capacity : Int) (ord : List GoString) (c : cache)
    (name : GoString) (data : Option (List UInt8)) :
    cacheMapOperatorStep capacity ord c ⟨READ, name, data⟩ =
      some (c, some (cacheRead c ⟨READ, name, data⟩)) := by
  have h : READ ≠ WRITE := by decide
  simp [cacheMapOperatorStep, h]

theorem cacheMapOperatorStep_stats (capacity : Int) (ord : List GoString) (c : cache)
    (name : GoString) (data : Option (List UInt8)) :
    cacheMapOperatorStep capacity ord c ⟨STATS, name, data⟩ =
      some (c, some (cacheStats c)) := by
  have h : STATS ≠ WRITE := by decide
  have h' : STATS ≠ READ := by decide
  simp [cacheMapOperatorStep, h, h']

theorem cacheMapOperatorStep_dropped (capacity : Int) (c : cache) (name : GoString)
    (bytes : List UInt8) (ord : List GoString) (hbig : (bytes.length : Int) > capacity) :
    cacheMapOperatorStep capacity ord c ⟨WRITE, name, some bytes⟩ = some (c, none) := by
  simp [cacheMapOperatorStep, cacheWrite_dropped capacity ord c WRITE name bytes hbig]

theorem storeStep_spec (capacity : Int) (c : cache) (h : WellFormed c) (o : StoreOp) :
    ∃ c' r, cacheMapOperatorStep capacity o.order c o.toCacheOp = some (c', r) ∧
      WellFormed c' ∧ (c.size ≤ capacity → c'.size ≤ capacity) := by
  cases o with
  | Write name bytes ord =>
    by_cases hbig : (bytes.length : Int) > capacity
    · refine ⟨c, none, ?_, h, id⟩
      simp [cacheMapOperatorStep, StoreOp.toCacheOp, StoreOp.order,
        cacheWrite_dropped capacity ord c WRITE name bytes hbig]
    · obtain ⟨c2, hw, hwf2, _, hbound, hnot⟩ :=
        cacheWrite_spec capacity ord c h WRITE name bytes (not_lt.mp hbig)
      refine ⟨_, none, ?_, hwf2.insert bytes hnot, fun _ => hbound⟩
      simp [cacheMapOperatorStep, StoreOp.toCacheOp, StoreOp.order, hw]
  | Read name =>
    exact ⟨c, some (cacheRead c ⟨READ, name, none⟩),
      by simp [cacheMapOperatorStep, StoreOp.toCacheOp, WRITE, READ], h, id⟩
  | Stats =>
    exact ⟨c, some (cacheStats c),
      by simp [cacheMapOperatorStep, StoreOp.toCacheOp, WRITE, READ, STATS], h, id⟩

theorem runStore_spec (capacity : Int) (ops : List StoreOp) (c : cache) (h : WellFormed c) :
    ∃ c', runStore capacity c ops = some c' ∧ WellFormed c' ∧
      (c.size ≤ capacity → c'.size ≤ capacity) := by
  induction ops generalizing c with
  | nil => exact ⟨c, rfl, h, id⟩
  | cons o os ih =>
    obtain ⟨c1, r, hstep, hwf1, hb1⟩ := storeStep_spec capacity c h o
    obtain ⟨c', hrun, hwf, hb⟩ := ih c1 hwf1
    exact ⟨c', by simp [runStore, hstep, hrun], hwf, fun hc => hb (hb1 hc)⟩

theorem runStore_writesOf_fit (capacity : Int)
    (ws : List (GoString × List UInt8 × List GoString)) (c : cache) (hsize : 0 ≤ c.size)
    (hdistinct : (ws.map (fun w => w.1)).Nodup)
    (hnew : ∀ w ∈ ws, w.1 ∉ mapKeys c.table)
    (hsum : c.size + (ws.map (fun w => (w.2.1.length : Int))).sum ≤ capacity) :
    runStore capacity c (writesOf ws) =
      some ⟨ws.reverse.map (fun w => (w.1, ⟨w.1, some w.2.1, true, -1, -1⟩)) ++ c.table,
        c.size + (ws.map (fun w => (w.2.1.length : Int))).sum⟩ := by
  induction ws generalizing c with
  | nil => simp [writesOf, runStore]
  | cons w ws ih =>
    simp only [List.map_cons, List.nodup_cons, List.sum_cons] at hdistinct hsum
    have hrest : (0 : Int) ≤ (ws.map (fun w => (w.2.1.length : Int))).sum :=
      List.sum_nonneg (by
        intro x hx
        obtain ⟨w', _, rfl⟩ := List.mem_map.mp hx
        exact Int.ofNat_nonneg _)
    have hlen : (0 : Int) ≤ (w.2.1.length : Int) := Int.ofNat_nonneg _
    have hw := cacheWrite_of_fits capacity w.2.2 c WRITE w.1 w.2.1
      (hnew w (List.mem_cons_self _ _)) hsize (by omega)
    have hnew' : ∀ w' ∈ ws, w'.1 ∉ mapKeys
        (⟨(w.1, ⟨w.1, some w.2.1, true, -1, -1⟩) :: c.table,
          c.size + w.2.1.length⟩ : cache).table := by
      intro w' hw' hmem
      simp only [mapKeys, List.map_cons, List.mem_cons] at hmem
      rcases hmem with heq | hmem
      · exact hdistinct.1 (heq ▸ List.mem_map_of_mem (fun w => w.1) hw')
      · exact hnew w' (List.mem_cons_of_mem _ hw') hmem
    have ih' := ih ⟨(w.1, ⟨w.1, some w.2.1, true, -1, -1⟩) :: c.table,
      c.size + w.2.1.length⟩ (by show (0 : Int) ≤ c.size + _; omega) hdistinct.2 hnew'
      (by show c.size + (w.2.1.length : Int) + _ ≤ capacity; omega)
    have hstep : runStore capacity c (writesOf (w :: ws)) =
        runStore capacity ⟨(w.1, ⟨w.1, some w.2.1, true, -1, -1⟩) :: c.table,
          c.size + w.2.1.length⟩ (writesOf ws) := by
      simp [writesOf, runStore, StoreOp.order, StoreOp.toCacheOp,
        cacheMapOperatorStep_write, hw]
    rw [hstep, ih']
    simp [List.reverse_cons, List.map_append, add_assoc]

/-! ## Lemmas on the request path -/

theorem operateCacheFile_miss (u : Userlib) (cfg : Config) (ord : List GoString)
    (deadlineFirst : Bool) (c : cache) (name : GoString)
    (hmiss : (cacheRead c ⟨READ, name, none⟩).valid = false) :
    operateCacheFile u cfg ord deadlineFirst c ⟨name⟩ =
      cacheMiss u cfg ord deadlineFirst c ⟨name⟩ := by
  simp [operateCacheFile, cacheMapOperatorStep_read, hmiss]

theorem operateCacheFile_hit (u : Userlib) (cfg : Config) (ord : List GoString)
    (deadlineFirst : Bool) (c : cache) (name : GoString) (e : cacheEntry)
    (hl : mapLookup name c.table = some e) (hv : e.valid = true) :
    operateCacheFile u cfg ord deadlineFirst c ⟨name⟩ =
      some ⟨⟨e.filename, e.data, none⟩, c, c, []⟩ := by
  simp [operateCacheFile, cacheMapOperatorStep_read, cacheRead, hl, hv]

theorem getFile_miss (u : Userlib) (cfg : Config) (ord : List GoString)
    (deadlineFirst : Bool) (c : cache) (raw name : GoString)
    (hname : sanitize raw = .done name)
    (hmiss : (cacheRead c ⟨READ, name, none⟩).valid = false) :
    getFile u cfg ord deadlineFirst c raw =
      match cacheMiss u cfg ord deadlineFirst c ⟨name⟩ with
      | none => .panicked
      | some h => .done h := by
  simp [getFile, hname, operateCacheFile_miss u cfg ord deadlineFirst c name hmiss]

/-! ## The store: capacity, accounting, insert-or-replace -/

/-- C1: for every positive capacity, the store agent started on the empty cache handles
every finite sequence of operations (writes of any name and bytes, reads, stats) without
a panic, and afterwards `cache.size` is at most the capacity. -/
theorem C1_size_le_capacity (capacity : Int) (hpos : 0 < capacity) (ops : List StoreOp) :
    ∃ c, runStore capacity emptyCache ops = some c ∧ c.size ≤ capacity := by
  obtain ⟨c, hrun, _, hb⟩ := runStore_spec capacity ops emptyCache wellFormed_emptyCache
  exact ⟨c, hrun, hb (by simpa [emptyCache] using hpos.le)⟩

theorem C1_size_le_capacity_witness :
    (0 : Int) < 10 ∧ ∃ c, runStore 10 emptyCache
      [.Write (ascii "a") [1, 2, 3, 4, 5, 6, 7, 8] [], .Read (ascii "a"),
        .Write (ascii "b") [1, 2, 3] [], .Stats] = some c ∧ c.size ≤ 10 :=
  ⟨by decide, C1_size_le_capacity 10 (by decide) _⟩

/-- C2: after every finite sequence of operations on the empty cache, `cache.size` is the
sum of the lengths of the byte sequences of the entries present in the map (whose keys
are pairwise distinct, so each entry is counted once). -/
theorem C2_size_eq_sum (capacity : Int) (ops : List StoreOp) :
    ∃ c, runStore capacity emptyCache ops = some c ∧ (mapKeys c.table).Nodup ∧
      (∀ p ∈ c.table, p.2.data ≠ none) ∧
      c.size = (c.table.map (fun p => ((p.2.data.getD []).length : Int))).sum := by
  obtain ⟨c, hrun, hwf, _⟩ := runStore_spec capacity ops emptyCache wellFormed_emptyCache
  exact ⟨c, hrun, hwf.nodup, hwf.hasData, hwf.acct⟩

/-- C3: on every well-formed store, a write of `bytes` under `name` with
`len(bytes) <= capacity` completes, and the read of `name` that follows it is answered
with a valid entry recorded under `name` whose data is exactly `bytes`; nothing is
assumed on whether `name` was present before. -/
theorem C3_read_after_write (capacity : Int) (c : cache) (hwf : WellFormed c)
    (name : GoString) (bytes : List UInt8) (ord ord' : List GoString)
    (hfit : (bytes.length : Int) ≤ capacity) :
    ∃ c' entry,
      cacheMapOperatorStep capacity ord c ⟨WRITE, name, some bytes⟩ = some (c', none) ∧
      cacheMapOperatorStep capacity ord' c' ⟨READ, name, none⟩ = some (c', some entry) ∧
      entry.valid = true ∧ entry.filename = name ∧ entry.data = some bytes := by
  obtain ⟨c2, hw, _, _, _, _⟩ := cacheWrite_spec capacity ord c hwf WRITE name bytes hfit
  refine ⟨⟨(name, ⟨name, some bytes, true, -1, -1⟩) :: c2.table, c2.size + bytes.length⟩,
    ⟨name, some bytes, true, -1, -1⟩, by simp [cacheMapOperatorStep, hw], ?_, rfl, rfl, rfl⟩
  simp [cacheMapOperatorStep, WRITE, READ, cacheRead, mapLookup_cons_self]

theorem C3_read_after_write_witness :
    WellFormed oneEntryCache ∧ (([7, 8, 9] : List UInt8).length : Int) ≤ 10 ∧
    ∃ c' entry,
      cacheMapOperatorStep 10 [] oneEntryCache ⟨WRITE, ascii "a", some [7, 8, 9]⟩ =
        some (c', none) ∧
      cacheMapOperatorStep 10 [] c' ⟨READ, ascii "a", none⟩ = some (c', some entry) ∧
      entry.valid = true ∧ entry.filename = ascii "a" ∧ entry.data = some [7, 8, 9] :=
  ⟨wellFormed_oneEntryCache, by decide,
    C3_read_after_write 10 oneEntryCache wellFormed_oneEntryCache (ascii "a") [7, 8, 9] [] []
      (by decide)⟩

/-- C4: on every store, a write whose bytes are longer than the capacity leaves the
store exactly as it was (same map, same `size`), and sends nothing back. -/
theorem C4_oversized_write_dropped (capacity : Int) (c : cache) (name : GoString)
    (bytes : List UInt8) (ord : List GoString) (hbig : (bytes.length : Int) > capacity) :
    cacheMapOperatorStep capacity ord c ⟨WRITE, name, some bytes⟩ = some (c, none) :=
  cacheMapOperatorStep_dropped capacity c name bytes ord hbig

theorem C4_oversized_write_dropped_witness :
    (([7, 8, 9] : List UInt8).length : Int) > 2 ∧
    cacheMapOperatorStep 2 [] oneEntryCache ⟨WRITE, ascii "a", some [7, 8, 9]⟩ =
      some (oneEntryCache, none) :=
  ⟨by decide, C4_oversized_write_dropped 2 oneEntryCache (ascii "a") [7, 8, 9] [] (by decide)⟩

/-! ## The request path: miss, hit, failed and oversized reads -/

/-- C5: when the sanitised name of a request is not served from the cache and
`userlib.ReadFile` returns `bytes` with a nil error before the deadline, the write of
`(name, bytes)` is handled by the store agent, the response carries the sanitised name,
exactly `bytes` and no error, one backing read was made, and the cache at the moment of
the reply (and afterwards) is the cache that write produced, which is what a stats
request then reports; when the bytes fit the capacity that cache holds the new entry. -/
theorem C5_miss_read_ok (u : Userlib) (cfg : Config) (ord : List GoString) (c : cache)
    (hwf : WellFormed c) (raw name : GoString) (bytes : List UInt8)
    (hname : sanitize raw = .done name)
    (hmiss : (cacheRead c ⟨READ, name, none⟩).valid = false)
    (hread : u.ReadFile cfg.workingDir name = (bytes, none)) :
    ∃ c', cacheMapOperatorStep cfg.capacity ord c ⟨WRITE, name, some bytes⟩ =
        some (c', none) ∧
      getFile u cfg ord false c raw = .done ⟨⟨name, some bytes, none⟩, c', c', [name]⟩ ∧
      (∀ ord', cacheMapOperatorStep cfg.capacity ord' c' ⟨STATS, [], none⟩ =
        some (c', some ⟨[], none, false, c'.size, mapLen c'.table⟩)) ∧
      ((bytes.length : Int) ≤ cfg.capacity →
        mapLookup name c'.table = some ⟨name, some bytes, true, -1, -1⟩) := by
  have hstep : ∃ c', cacheMapOperatorStep cfg.capacity ord c ⟨WRITE, name, some bytes⟩ =
        some (c', none) ∧
      ((bytes.length : Int) ≤ cfg.capacity →
        mapLookup name c'.table = some ⟨name, some bytes, true, -1, -1⟩) := by
    by_cases hbig : (bytes.length : Int) > cfg.capacity
    · exact ⟨c, cacheMapOperatorStep_dropped cfg.capacity c name bytes ord hbig,
        fun h => absurd h (not_le.mpr hbig)⟩
    · obtain ⟨c2, hw, _, _, _, _⟩ :=
        cacheWrite_spec cfg.capacity ord c hwf WRITE name bytes (not_lt.mp hbig)
      exact ⟨⟨(name, ⟨name, some bytes, true, -1, -1⟩) :: c2.table,
        c2.size + bytes.length⟩, by simp [cacheMapOperatorStep_write, hw],
        fun _ => mapLookup_cons_self _ _ _⟩
  obtain ⟨c', hstep, hpresent⟩ := hstep
  refine ⟨c', hstep, ?_, fun ord' => ?_, hpresent⟩
  · simp [getFile, hname, operateCacheFile_miss u cfg ord false c name hmiss, cacheMiss,
      hread, hstep]
  · simp [cacheMapOperatorStep_stats, cacheStats]

theorem C5_miss_read_ok_witness :
    ∃ c', cacheMapOperatorStep testConfig.capacity [] emptyCache
        ⟨WRITE, ascii "./README.md", some
          (ascii "CS61C is the best class in the world! Emperor Nick shall reign supreme.")⟩ =
        some (c', none) ∧
      getFile testUserlib testConfig [] false emptyCache (ascii "/README.md") =
        .done ⟨⟨ascii "./README.md", some
          (ascii "CS61C is the best class in the world! Emperor Nick shall reign supreme."),
          none⟩, c', c', [ascii "./README.md"]⟩ ∧
      (∀ ord', cacheMapOperatorStep testConfig.capacity ord' c' ⟨STATS, [], none⟩ =
        some (c', some ⟨[], none, false, c'.size, mapLen c'.table⟩)) ∧
      ((((ascii "CS61C is the best class in the world! Emperor Nick shall reign supreme."
          ).length : Nat) : Int) ≤ testConfig.capacity →
        mapLookup (ascii "./README.md") c'.table = some ⟨ascii "./README.md", some
          (ascii "CS61C is the best class in the world! Emperor Nick shall reign supreme."),
          true, -1, -1⟩) :=
  C5_miss_read_ok testUserlib testConfig [] emptyCache wellFormed_emptyCache
    (ascii "/README.md") (ascii "./README.md")
    (ascii "CS61C is the best class in the world! Emperor Nick shall reign supreme.")
    (by decide) (by decide) (by decide)

/-- C7, the claim as stated fails when the deadline fires before the failing read returns:
the reply is then the timeout response, not the file-error response. -/
theorem C7_failed_read_after_deadline :
    ∃ h, getFile testUserlib testConfig [] true oneEntryCache (ascii "/IDONTEXIST.txt") =
        .done h ∧
      (testUserlib.ReadFile testConfig.workingDir (ascii "./IDONTEXIST.txt")).2 ≠ none ∧
      h.response = ⟨ascii "./IDONTEXIST.txt", none, some testUserlib.TimeoutString⟩ ∧
      h.response.responseError ≠ some testUserlib.FILEERRORMSG :=
  ⟨_, rfl, by decide, by decide, by decide⟩

/-- C7 (amended): when a request misses and its backing read returns a non-nil error, then
whether or not the deadline fires first no write is sent to the store (the cache, hence
its entry count and `size`, is the one before the request, at the reply and afterwards),
one backing read was made, and the same request made again makes the backing read again;
the response carries the file-error message when the read returns before the deadline,
and is the timeout response when the deadline fires first. -/
theorem C7_failed_read_not_cached (u : Userlib) (cfg : Config) (ord : List GoString)
    (deadlineFirst : Bool) (c : cache) (raw name : GoString) (data : List UInt8)
    (err : GoString) (hname : sanitize raw = .done name)
    (hmiss : (cacheRead c ⟨READ, name, none⟩).valid = false)
    (hread : u.ReadFile cfg.workingDir name = (data, some err)) :
    ∃ h, getFile u cfg ord deadlineFirst c raw = .done h ∧
      (deadlineFirst = false → h.response = ⟨name, some data, some u.FILEERRORMSG⟩) ∧
      (deadlineFirst = true → h.response = ⟨name, none, some u.TimeoutString⟩) ∧
      h.cacheAtReply = c ∧ h.cache = c ∧ cacheStats h.cache = cacheStats c ∧
      h.reads = [name] ∧
      ∀ ord' deadlineFirst', ∃ h', getFile u cfg ord' deadlineFirst' h.cache raw = .done h' ∧
        h'.reads = [name] ∧ h'.cache = c := by
  have key : ∀ o d, getFile u cfg o d c raw =
      .done ⟨if d then ⟨name, none, some u.TimeoutString⟩
        else ⟨name, some data, some u.FILEERRORMSG⟩, c, c, [name]⟩ := by
    intro o d
    simp [getFile_miss u cfg o d c raw name hname hmiss, cacheMiss, hread]
  refine ⟨_, key ord deadlineFirst, fun hd => by simp [hd], fun hd => by simp [hd],
    rfl, rfl, rfl, rfl, fun ord' d' => ⟨_, key ord' d', rfl, rfl⟩⟩

theorem C7_failed_read_not_cached_witness :
    ∃ h, getFile testUserlib testConfig [] false oneEntryCache (ascii "/IDONTEXIST.txt") =
        .done h ∧
      (false = false → h.response = ⟨ascii "./IDONTEXIST.txt",
        some (ascii "CS61C is the worst class ever!"), some testUserlib.FILEERRORMSG⟩) ∧
      (false = true → h.response =
        ⟨ascii "./IDONTEXIST.txt", none, some testUserlib.TimeoutString⟩) ∧
      h.cacheAtReply = oneEntryCache ∧ h.cache = oneEntryCache ∧
      cacheStats h.cache = cacheStats oneEntryCache ∧
      h.reads = [ascii "./IDONTEXIST.txt"] ∧
      ∀ ord' deadlineFirst', ∃ h', getFile testUserlib testConfig ord' deadlineFirst' h.cache
          (ascii "/IDONTEXIST.txt") = .done h' ∧
        h'.reads = [ascii "./IDONTEXIST.txt"] ∧ h'.cache = oneEntryCache :=
  C7_failed_read_not_cached testUserlib testConfig [] false oneEntryCache
    (ascii "/IDONTEXIST.txt") (ascii "./IDONTEXIST.txt")
    (ascii "CS61C is the worst class ever!") (ascii "the file does not exist")
    (by decide) (by decide) (by decide)

/-- C8, the claim as stated fails when the deadline fires before the read returns: the
read succeeds with more bytes than the capacity, and the caller receives the timeout
response, not the bytes. -/
theorem C8_oversized_read_after_deadline :
    ∃ h, getFile testUserlib smallConfig [] true oneEntryCache (ascii "/largefile.61c") =
        .done h ∧
      testUserlib.ReadFile smallConfig.workingDir (ascii "./largefile.61c") =
        (ascii "I am very many bytes of data!", none) ∧
      ((ascii "I am very many bytes of data!").length : Int) > smallConfig.capacity ∧
      h.response = ⟨ascii "./largefile.61c", none, some testUserlib.TimeoutString⟩ ∧
      h.response.responseData ≠ some (ascii "I am very many bytes of data!") :=
  ⟨_, rfl, by decide, by decide, by decide, by decide⟩

/-- C8 (amended): when a request misses and its backing read returns, with a nil error,
more bytes than the capacity, then whether or not the deadline fires first the cache is
left as it was (at the reply and afterwards), and the next request for the same name
misses again and makes another backing read; the response carries all the bytes and no
error when the read returns before the deadline, and is the timeout response when the
deadline fires first. -/
theorem C8_oversized_read (u : Userlib) (cfg : Config) (ord : List GoString)
    (deadlineFirst : Bool) (c : cache) (raw name : GoString) (bytes : List UInt8)
    (hname : sanitize raw = .done name)
    (hmiss : (cacheRead c ⟨READ, name, none⟩).valid = false)
    (hread : u.ReadFile cfg.workingDir name = (bytes, none))
    (hbig : (bytes.length : Int) > cfg.capacity) :
    ∃ h, getFile u cfg ord deadlineFirst c raw = .done h ∧
      (deadlineFirst = false → h.response = ⟨name, some bytes, none⟩) ∧
      (deadlineFirst = true → h.response = ⟨name, none, some u.TimeoutString⟩) ∧
      h.cacheAtReply = c ∧ h.cache = c ∧ h.reads = [name] ∧
      ∀ ord' deadlineFirst', ∃ h', getFile u cfg ord' deadlineFirst' h.cache raw = .done h' ∧
        (deadlineFirst' = false → h'.response = ⟨name, some bytes, none⟩) ∧
        h'.reads = [name] ∧ h'.cache = c := by
  have key : ∀ o d, getFile u cfg o d c raw =
      .done ⟨if d then ⟨name, none, some u.TimeoutString⟩ else ⟨name, some bytes, none⟩,
        c, c, [name]⟩ := by
    intro o d
    simp [getFile_miss u cfg o d c raw name hname hmiss, cacheMiss, hread,
      cacheMapOperatorStep_dropped cfg.capacity c name bytes o hbig]
  refine ⟨_, key ord deadlineFirst, fun hd => by simp [hd], fun hd => by simp [hd],
    rfl, rfl, rfl, fun ord' d' => ⟨_, key ord' d', fun hd => by simp [hd], rfl, rfl⟩⟩

theorem C8_oversized_read_witness :
    ∃ h, getFile testUserlib smallConfig [] false oneEntryCache (ascii "/largefile.61c") =
        .done h ∧
      (false = false → h.response = ⟨ascii "./largefile.61c",
        some (ascii "I am very many bytes of data!"), none⟩) ∧
      (false = true → h.response =
        ⟨ascii "./largefile.61c", none, some testUserlib.TimeoutString⟩) ∧
      h.cacheAtReply = oneEntryCache ∧ h.cache = oneEntryCache ∧
      h.reads = [ascii "./largefile.61c"] ∧
      ∀ ord' deadlineFirst', ∃ h', getFile testUserlib smallConfig ord' deadlineFirst' h.cache
          (ascii "/largefile.61c") = .done h' ∧
        (deadlineFirst' = false → h'.response = ⟨ascii "./largefile.61c",
          some (ascii "I am very many bytes of data!"), none⟩) ∧
        h'.reads = [ascii "./largefile.61c"] ∧ h'.cache = oneEntryCache :=
  C8_oversized_read testUserlib smallConfig [] false oneEntryCache (ascii "/largefile.61c")
    (ascii "./largefile.61c") (ascii "I am very many bytes of data!")
    (by decide) (by decide) (by decide) (by decide)

/-! ## The store: no eviction when everything fits, idempotent writes -/

/-- C9: starting from the empty cache, after the writes of pairwise-distinct names whose
byte lengths sum to at most the capacity (equality included), every one of the entries is
in the map with its bytes, and the stats request reports as many entries as there were
writes and a `size` equal to the sum of the lengths. -/
theorem C9_all_kept_when_sum_fits (capacity : Int)
    (ws : List (GoString × List UInt8 × List GoString))
    (hdistinct : (ws.map (fun w => w.1)).Nodup)
    (hsum : (ws.map (fun w => (w.2.1.length : Int))).sum ≤ capacity) :
    ∃ c, runStore capacity emptyCache (writesOf ws) = some c ∧
      (∀ w ∈ ws, mapLookup w.1 c.table = some ⟨w.1, some w.2.1, true, -1, -1⟩) ∧
      ∀ ord, cacheMapOperatorStep capacity ord c ⟨STATS, [], none⟩ =
        some (c, some ⟨[], none, false, (ws.map (fun w => (w.2.1.length : Int))).sum,
          ws.length⟩) := by
  have hrun := runStore_writesOf_fit capacity ws emptyCache (by simp [emptyCache])
    hdistinct (by simp [emptyCache, mapKeys]) (by simpa [emptyCache] using hsum)
  refine ⟨_, hrun, fun w hw => ?_, fun ord => ?_⟩
  · apply mapLookup_of_mem
    · simp only [emptyCache, List.append_nil, mapKeys, List.map_map, List.map_reverse]
      exact List.nodup_reverse.mpr hdistinct
    · simp only [emptyCache, List.append_nil, List.mem_map, List.mem_reverse]
      exact ⟨w, hw, rfl⟩
  · simp [cacheMapOperatorStep_stats, cacheStats, emptyCache, mapLen]

theorem C9_all_kept_when_sum_fits_witness :
    ∃ c, runStore 10 emptyCache (writesOf
        [(ascii "0", ascii "FID:0", []), (ascii "1", ascii "FID:1", [ascii "0"])]) = some c ∧
      (∀ w ∈ [(ascii "0", ascii "FID:0", ([] : List GoString)),
          (ascii "1", ascii "FID:1", [ascii "0"])],
        mapLookup w.1 c.table = some ⟨w.1, some w.2.1, true, -1, -1⟩) ∧
      ∀ ord, cacheMapOperatorStep 10 ord c ⟨STATS, [], none⟩ =
        some (c, some ⟨[], none, false,
          ([(ascii "0", ascii "FID:0", ([] : List GoString)),
            (ascii "1", ascii "FID:1", [ascii "0"])].map
              (fun w => (w.2.1.length : Int))).sum,
          ([(ascii "0", ascii "FID:0", ([] : List GoString)),
            (ascii "1", ascii "FID:1", [ascii "0"])].length : Nat)⟩) :=
  C9_all_kept_when_sum_fits 10
    [(ascii "0", ascii "FID:0", []), (ascii "1", ascii "FID:1", [ascii "0"])]
    (by decide) (by decide)

/-- C10: on every well-formed store a write of `bytes` under `name`, applied a second time
(whatever the visiting orders of the two eviction loops), yields the store the first one
yielded; when the bytes fit the capacity that store holds exactly one entry under `name`,
carrying `bytes`, and its `size` is the sum of the lengths of its entries. -/
theorem C10_write_idempotent (capacity : Int) (c : cache) (hwf : WellFormed c)
    (name : GoString) (bytes : List UInt8) (ord1 ord2 : List GoString) :
    ∃ c1,
      cacheMapOperatorStep capacity ord1 c ⟨WRITE, name, some bytes⟩ = some (c1, none) ∧
      cacheMapOperatorStep capacity ord2 c1 ⟨WRITE, name, some bytes⟩ = some (c1, none) ∧
      c1.size = totalLength c1.table ∧
      ((bytes.length : Int) ≤ capacity →
        (c1.table.filter (fun p => decide (p.1 = name))).length = 1 ∧
        mapLookup name c1.table = some ⟨name, some bytes, true, -1, -1⟩) := by
  by_cases hbig : (bytes.length : Int) > capacity
  · refine ⟨c, ?_, ?_, hwf.acct, fun h => absurd h (not_le.mpr hbig)⟩
    · simp [cacheMapOperatorStep, cacheWrite_dropped capacity ord1 c WRITE name bytes hbig]
    · simp [cacheMapOperatorStep, cacheWrite_dropped capacity ord2 c WRITE name bytes hbig]
  · have hfit := not_lt.mp hbig
    obtain ⟨c2, hw, hwf2, _, hbound, hnot⟩ :=
      cacheWrite_spec capacity ord1 c hwf WRITE name bytes hfit
    have hwf1 := hwf2.insert bytes hnot
    refine ⟨⟨(name, ⟨name, some bytes, true, -1, -1⟩) :: c2.table, c2.size + bytes.length⟩,
      by simp [cacheMapOperatorStep, hw], ?_, hwf1.acct, fun _ => ⟨?_, ?_⟩⟩
    · simp [cacheMapOperatorStep,
        cacheWrite_again capacity ord2 c2 WRITE name bytes hnot hbound hfit]
    · have hnone : c2.table.filter (fun p => decide (p.1 = name)) = [] := by
        rw [List.filter_eq_nil_iff]
        intro p hp
        have : p.1 ≠ name := fun hk => hnot (hk ▸ List.mem_map_of_mem Prod.fst hp)
        simpa using this
      simp [List.filter_cons, hnone]
    · exact mapLookup_cons_self _ _ _

theorem C10_write_idempotent_witness :
    WellFormed oneEntryCache ∧
    ∃ c1,
      cacheMapOperatorStep 4 [] oneEntryCache ⟨WRITE, ascii "b", some [7, 8, 9]⟩ =
        some (c1, none) ∧
      cacheMapOperatorStep 4 [ascii "a"] c1 ⟨WRITE, ascii "b", some [7, 8, 9]⟩ =
        some (c1, none) ∧
      c1.size = totalLength c1.table ∧
      ((([7, 8, 9] : List UInt8).length : Int) ≤ 4 →
        (c1.table.filter (fun p => decide (p.1 = ascii "b"))).length = 1 ∧
        mapLookup (ascii "b") c1.table = some ⟨ascii "b", some [7, 8, 9], true, -1, -1⟩) :=
  ⟨wellFormed_oneEntryCache,
    C10_write_idempotent 4 oneEntryCache wellFormed_oneEntryCache (ascii "b") [7, 8, 9] []
      [ascii "a"]⟩


/-! ## Lemmas on `strings.Contains` and `strings.Replace` -/

theorem startsWith_iff (s pat : GoString) :
    startsWith s pat = true ↔ ∃ rest, s = pat ++ rest := by
  induction pat generalizing s with
  | nil => cases s <;> simp [startsWith]
  | cons p pat ih =>
    cases s with
    | nil => simp [startsWith]
    | cons b s =>
      simp only [startsWith, Bool.and_eq_true, beq_iff_eq, ih, List.cons_append,
        List.cons.injEq]
      constructor
      · rintro ⟨rfl, rest, rfl⟩
        exact ⟨rest, rfl, rfl⟩
      · rintro ⟨rest, rfl, rfl⟩
        exact ⟨rfl, rest, rfl⟩

theorem Contains_iff (s pat : GoString) :
    Contains s pat = true ↔ ∃ u v, s = u ++ pat ++ v := by
  induction s with
  | nil =>
    simp only [Contains, startsWith_iff]
    constructor
    · rintro ⟨rest, h⟩
      exact ⟨[], rest, by simpa using h⟩
    · rintro ⟨u, v, h⟩
      have h1 : u ++ pat ++ v = [] := h.symm
      simp only [List.append_eq_nil] at h1
      exact ⟨[], by simp [h1.1.2]⟩
  | cons b s ih =>
    simp only [Contains, Bool.or_eq_true, startsWith_iff, ih]
    constructor
    · rintro (⟨rest, h⟩ | ⟨u, v, h⟩)
      · exact ⟨[], rest, by simpa using h⟩
      · exact ⟨b :: u, v, by simp [h]⟩
    · rintro ⟨u, v, h⟩
      cases u with
      | nil => exact Or.inl ⟨v, by simpa using h⟩
      | cons a u =>
        simp only [List.cons_append, List.cons.injEq] at h
        exact Or.inr ⟨u, v, by simpa using h.2⟩

theorem Contains_cons (b : UInt8) (s pat : GoString) :
    Contains (b :: s) pat = (startsWith (b :: s) pat || Contains s pat) := rfl

theorem Contains_of_append_left (u s pat : GoString) (h : Contains s pat = true) :
    Contains (u ++ s) pat = true := by
  obtain ⟨a, b, rfl⟩ := (Contains_iff _ _).mp h
  exact (Contains_iff _ _).mpr ⟨u ++ a, b, by simp⟩

theorem replaceScan_skip (old new xs rest : GoString) :
    replaceScan old new xs.length (xs ++ rest) = replaceScan old new 0 rest := by
  induction xs with
  | nil => rfl
  | cons x xs ih => simpa [replaceScan] using ih

theorem Replace_nil (old new : GoString) : Replace [] old new = [] := by
  simp [Replace, replaceScan]

theorem Replace_hit (o : UInt8) (os new rest : GoString) :
    Replace ((o :: os) ++ rest) (o :: os) new = new ++ Replace rest (o :: os) new := by
  have hs : startsWith (o :: (os ++ rest)) (o :: os) = true :=
    (startsWith_iff _ _).mpr ⟨rest, rfl⟩
  have hlen : (o :: os).length - 1 = os.length := by simp
  unfold Replace
  rw [List.cons_append, replaceScan, if_pos hs, hlen, replaceScan_skip]

theorem Replace_miss (b : UInt8) (s old new : GoString)
    (h : startsWith (b :: s) old = false) :
    Replace (b :: s) old new = b :: Replace s old new := by
  simp [Replace, replaceScan, h]

/-- Induction along the scan of `Replace`: either the pattern starts here and the scan
continues behind it, or one byte is copied. -/
theorem Replace_induction {motive : GoString → Prop} (o : UInt8) (os : GoString)
    (nil : motive [])
    (hit : ∀ rest, motive rest → motive ((o :: os) ++ rest))
    (miss : ∀ b s, startsWith (b :: s) (o :: os) = false → motive s → motive (b :: s)) :
    ∀ s, motive s := by
  suffices h : ∀ n (s : GoString), s.length = n → motive s from fun s => h _ s rfl
  intro n
  induction n using Nat.strong_induction_on with
  | _ n ih =>
    intro s hn
    cases s with
    | nil => exact nil
    | cons b s =>
      cases hs : startsWith (b :: s) (o :: os) with
      | false => exact miss b s hs (ih s.length (by simp [← hn]) s rfl)
      | true =>
        obtain ⟨rest, hrest⟩ := (startsWith_iff _ _).mp hs
        rw [hrest]
        refine hit rest (ih rest.length ?_ rest rfl)
        have := congrArg List.length hrest
        simp at this hn
        omega

theorem Replace_of_not_Contains (s old new : GoString) (h : Contains s old = false) :
    Replace s old new = s := by
  induction s with
  | nil => exact Replace_nil _ _
  | cons b s ih =>
    simp only [Contains, Bool.or_eq_false_iff] at h
    rw [Replace_miss b s old new h.1, ih h.2]

theorem Replace_length_le (o : UInt8) (os new : GoString)
    (hlen : new.length ≤ (o :: os).length) (s : GoString) :
    (Replace s (o :: os) new).length ≤ s.length := by
  refine Replace_induction o os (motive := fun s =>
    (Replace s (o :: os) new).length ≤ s.length) ?_ ?_ ?_ s
  · simp [Replace_nil]
  · intro rest ih
    rw [Replace_hit]
    simp only [List.length_append, List.length_cons] at hlen ih ⊢
    omega
  · intro b s hs ih
    rw [Replace_miss b s _ _ hs]
    simp only [List.length_cons]
    omega

theorem Replace_length_lt (o : UInt8) (os new : GoString)
    (hlen : new.length < (o :: os).length) (s : GoString)
    (hc : Contains s (o :: os) = true) :
    (Replace s (o :: os) new).length < s.length := by
  induction s with
  | nil =>
    simp [Contains, startsWith] at hc
  | cons b s ih =>
    cases hs : startsWith (b :: s) (o :: os) with
    | true =>
      obtain ⟨rest, hrest⟩ := (startsWith_iff _ _).mp hs
      rw [hrest, Replace_hit]
      have := Replace_length_le o os new hlen.le rest
      simp only [List.length_append, List.length_cons] at hlen this ⊢
      omega
    | false =>
      simp only [Contains, hs, Bool.false_or] at hc
      rw [Replace_miss b s _ _ hs]
      simpa using ih hc


theorem ascii_dotdot : ascii "/../" = [47, 46, 46, 47] := by decide

theorem ascii_backslash : ascii "\\/" = [92, 47] := by decide

theorem ascii_slashes : ascii "//" = [47, 47] := by decide

theorem ascii_slash : ascii "/" = [47] := by decide

/-! ## One pass of the loop body -/

theorem replacePass_of_not_needsPass (s : GoString) (h : needsPass s = false) :
    replacePass s = s := by
  simp only [needsPass, Bool.or_eq_false_iff] at h
  obtain ⟨⟨h1, h2⟩, h3⟩ := h
  unfold replacePass
  rw [Replace_of_not_Contains s _ _ h1, Replace_of_not_Contains s _ _ h2,
    Replace_of_not_Contains s _ _ h3]

theorem replacePass_length_lt (s : GoString) (h : needsPass s = true) :
    (replacePass s).length < s.length := by
  have le1 : ∀ x : GoString, (Replace x (ascii "/../") (ascii "/")).length ≤ x.length := by
    intro x; rw [ascii_dotdot, ascii_slash]; exact Replace_length_le _ _ _ (by simp) x
  have le2 : ∀ x : GoString, (Replace x (ascii "\\/") (ascii "/")).length ≤ x.length := by
    intro x; rw [ascii_backslash, ascii_slash]; exact Replace_length_le _ _ _ (by simp) x
  have le3 : ∀ x : GoString, (Replace x (ascii "//") (ascii "/")).length ≤ x.length := by
    intro x; rw [ascii_slashes, ascii_slash]; exact Replace_length_le _ _ _ (by simp) x
  have lt1 : ∀ x : GoString, Contains x (ascii "/../") = true →
      (Replace x (ascii "/../") (ascii "/")).length < x.length := by
    intro x hx; rw [ascii_dotdot] at hx ⊢; rw [ascii_slash]
    exact Replace_length_lt _ _ _ (by simp) x hx
  have lt2 : ∀ x : GoString, Contains x (ascii "\\/") = true →
      (Replace x (ascii "\\/") (ascii "/")).length < x.length := by
    intro x hx; rw [ascii_backslash] at hx ⊢; rw [ascii_slash]
    exact Replace_length_lt _ _ _ (by simp) x hx
  have lt3 : ∀ x : GoString, Contains x (ascii "//") = true →
      (Replace x (ascii "//") (ascii "/")).length < x.length := by
    intro x hx; rw [ascii_slashes] at hx ⊢; rw [ascii_slash]
    exact Replace_length_lt _ _ _ (by simp) x hx
  unfold replacePass
  cases h1 : Contains s (ascii "/../") with
  | true =>
    have a := lt1 s h1
    have b := le2 (Replace s (ascii "/../") (ascii "/"))
    have c := le3 (Replace (Replace s (ascii "/../") (ascii "/")) (ascii "\\/") (ascii "/"))
    omega
  | false =>
    rw [Replace_of_not_Contains s _ _ h1]
    cases h2 : Contains s (ascii "\\/") with
    | true =>
      have b := lt2 s h2
      have c := le3 (Replace s (ascii "\\/") (ascii "/"))
      omega
    | false =>
      rw [Replace_of_not_Contains s _ _ h2]
      have h3 : Contains s (ascii "//") = true := by
        simpa [needsPass, h1, h2] using h
      exact lt3 s h3

/-! ## The loop -/

theorem needsPass_nil : needsPass [] = false := by decide

theorem sanitizeLoop_total (fuel : Nat) (s : GoString) (h : s.length ≤ fuel) :
    ∃ r, sanitizeLoop fuel s = some r := by
  induction fuel generalizing s with
  | zero =>
    have hs : s = [] := List.length_eq_zero.mp (Nat.le_zero.mp h)
    subst hs
    exact ⟨[], by simp [sanitizeLoop, needsPass_nil]⟩
  | succ fuel ih =>
    cases hp : needsPass s with
    | false => exact ⟨s, by simp [sanitizeLoop, hp]⟩
    | true =>
      have hlt := replacePass_length_lt s hp
      obtain ⟨r, hr⟩ := ih (replacePass s) (by omega)
      exact ⟨r, by simp [sanitizeLoop, hp, hr]⟩

theorem sanitizeLoop_succ (fuel : Nat) (s r : GoString) (h : sanitizeLoop fuel s = some r) :
    sanitizeLoop (fuel + 1) s = some r := by
  induction fuel generalizing s with
  | zero =>
    cases hp : needsPass s with
    | false => simpa [sanitizeLoop, hp] using h
    | true => simp [sanitizeLoop, hp] at h
  | succ fuel ih =>
    cases hp : needsPass s with
    | false => simpa [sanitizeLoop, hp] using h
    | true =>
      simp only [sanitizeLoop, hp, if_true] at h
      have := ih (replacePass s) h
      rw [sanitizeLoop]
      simpa [hp] using this

theorem sanitizeLoop_add (fuel k : Nat) (s r : GoString)
    (h : sanitizeLoop fuel s = some r) : sanitizeLoop (fuel + k) s = some r := by
  induction k with
  | zero => exact h
  | succ k ih => exact sanitizeLoop_succ _ _ _ ih

/-- A property kept by every pass holds of the result of the loop, which needs no
further pass. -/
theorem sanitizeLoop_invariant (P : GoString → Prop)
    (hP : ∀ x, P x → needsPass x = true → P (replacePass x)) (fuel : Nat)
    (s r : GoString) (h : sanitizeLoop fuel s = some r) (hs : P s) :
    P r ∧ needsPass r = false := by
  induction fuel generalizing s with
  | zero =>
    cases hp : needsPass s with
    | false =>
      simp only [sanitizeLoop, hp] at h
      cases h
      exact ⟨hs, hp⟩
    | true => simp [sanitizeLoop, hp] at h
  | succ fuel ih =>
    cases hp : needsPass s with
    | false =>
      simp only [sanitizeLoop, hp] at h
      cases h
      exact ⟨hs, hp⟩
    | true =>
      simp only [sanitizeLoop, hp, if_true] at h
      exact ih (replacePass s) h (hP s hs hp)


/-! ## The loop keeps a leading `/` and never empties a path -/

theorem Replace_head_slash (o : UInt8) (os s : GoString) :
    ∃ t, Replace (47 :: s) (o :: os) [47] = 47 :: t := by
  cases hs : startsWith (47 :: s) (o :: os) with
  | false => exact ⟨_, Replace_miss 47 s _ _ hs⟩
  | true =>
    obtain ⟨rest, hrest⟩ := (startsWith_iff _ _).mp hs
    rw [hrest, Replace_hit]
    exact ⟨_, rfl⟩

theorem Replace_ne_nil (o n : UInt8) (os ns s : GoString) (h : s ≠ []) :
    Replace s (o :: os) (n :: ns) ≠ [] := by
  cases s with
  | nil => exact absurd rfl h
  | cons b s =>
    cases hs : startsWith (b :: s) (o :: os) with
    | false => rw [Replace_miss b s _ _ hs]; simp
    | true =>
      obtain ⟨rest, hrest⟩ := (startsWith_iff _ _).mp hs
      rw [hrest, Replace_hit]
      simp

theorem replacePass_head_slash (s : GoString) : ∃ t, replacePass (47 :: s) = 47 :: t := by
  unfold replacePass
  rw [ascii_dotdot, ascii_backslash, ascii_slashes, ascii_slash]
  obtain ⟨t1, h1⟩ := Replace_head_slash 47 [46, 46, 47] s
  obtain ⟨t2, h2⟩ := Replace_head_slash 92 [47] t1
  obtain ⟨t3, h3⟩ := Replace_head_slash 47 [47] t2
  exact ⟨t3, by rw [h1, h2, h3]⟩

theorem replacePass_ne_nil (s : GoString) (h : s ≠ []) : replacePass s ≠ [] := by
  unfold replacePass
  rw [ascii_dotdot, ascii_backslash, ascii_slashes, ascii_slash]
  exact Replace_ne_nil _ _ _ _ _ (Replace_ne_nil _ _ _ _ _ (Replace_ne_nil _ _ _ _ _ h))

/-! ## Single replacements: the loop computes the unique irreducible form -/

theorem Step.append_left (w : GoString) {s t : GoString} (h : Step s t) :
    Step (w ++ s) (w ++ t) := by
  cases h with
  | replace u old v hold =>
    have := Step.replace (w ++ u) old v hold
    simpa [List.append_assoc] using this

theorem Step.length_lt {s t : GoString} (h : Step s t) : t.length < s.length := by
  cases h with
  | replace u old v hold =>
    simp only [rulePatterns, ascii_dotdot, ascii_backslash, ascii_slashes, List.mem_cons,
      List.mem_singleton, List.not_mem_nil, or_false] at hold
    rcases hold with rfl | rfl | rfl <;> simp [ascii_slash]

theorem Step.needsPass {s t : GoString} (h : Step s t) : needsPass s = true := by
  cases h with
  | replace u old v hold =>
    have hc : Contains (u ++ old ++ v) old = true := (Contains_iff _ _).mpr ⟨u, v, rfl⟩
    simp only [rulePatterns, List.mem_cons, List.mem_singleton, List.not_mem_nil,
      or_false] at hold
    rcases hold with rfl | rfl | rfl <;>
      simp only [CachedFileServer.needsPass, hc, Bool.or_true, Bool.true_or]

theorem steps_append_left (w : GoString) {s t : GoString}
    (h : Relation.ReflTransGen Step s t) :
    Relation.ReflTransGen Step (w ++ s) (w ++ t) :=
  Relation.ReflTransGen.lift (fun x => w ++ x) (fun _ _ hst => hst.append_left w) h

theorem steps_cons (a : UInt8) {s t : GoString} (h : Relation.ReflTransGen Step s t) :
    Relation.ReflTransGen Step (a :: s) (a :: t) :=
  steps_append_left [a] h

theorem steps_rule (old v : GoString) (h : old ∈ rulePatterns) :
    Relation.ReflTransGen Step (old ++ v) (47 :: v) := by
  have := Step.replace [] old v h
  rw [ascii_slash] at this
  exact Relation.ReflTransGen.single this

theorem steps_slash_rule (old v : GoString) (h : old ∈ rulePatterns) :
    Relation.ReflTransGen Step (47 :: (old ++ v)) (47 :: v) :=
  (steps_cons 47 (steps_rule old v h)).trans (steps_rule [47, 47] v (by decide))

theorem steps_rule_slash (old v : GoString) (h : old ∈ rulePatterns) :
    Relation.ReflTransGen Step (old ++ 47 :: v) (47 :: v) :=
  (steps_rule old (47 :: v) h).trans (steps_rule [47, 47] v (by decide))

theorem Replace_steps (old : GoString) (h : old ∈ rulePatterns) (s : GoString) :
    Relation.ReflTransGen Step s (Replace s old [47]) := by
  obtain ⟨o, os, rfl⟩ : ∃ o os, old = o :: os := by
    simp only [rulePatterns, ascii_dotdot, ascii_backslash, ascii_slashes, List.mem_cons,
      List.mem_singleton, List.not_mem_nil, or_false] at h
    rcases h with rfl | rfl | rfl <;> exact ⟨_, _, rfl⟩
  refine Replace_induction o os (motive := fun s =>
    Relation.ReflTransGen Step s (Replace s (o :: os) [47])) ?_ ?_ ?_ s
  · show Relation.ReflTransGen Step [] (Replace [] (o :: os) [47])
    rw [Replace_nil]
  · intro rest ih
    show Relation.ReflTransGen Step _ (Replace ((o :: os) ++ rest) (o :: os) [47])
    rw [Replace_hit]
    exact (steps_rule (o :: os) rest h).trans (steps_cons 47 ih)
  · intro b s hs ih
    show Relation.ReflTransGen Step _ (Replace (b :: s) (o :: os) [47])
    rw [Replace_miss b s _ _ hs]
    exact steps_cons b ih

theorem replacePass_steps (s : GoString) : Relation.ReflTransGen Step s (replacePass s) := by
  unfold replacePass
  rw [ascii_slash]
  exact ((Replace_steps _ (by decide) s).trans (Replace_steps _ (by decide) _)).trans
    (Replace_steps _ (by decide) _)


theorem confluent_base (l1 l2 v1 u2 v2 : GoString) (h1 : l1 ∈ rulePatterns)
    (h2 : l2 ∈ rulePatterns) (h : l1 ++ v1 = u2 ++ (l2 ++ v2)) :
    ∃ d, Relation.ReflTransGen Step (47 :: v1) d ∧
      Relation.ReflTransGen Step (u2 ++ 47 :: v2) d := by
  rcases List.append_eq_append_iff.mp h with ⟨w, rfl, rfl⟩ | ⟨c, hl, hr⟩
  · refine ⟨47 :: (w ++ 47 :: v2), ?_, ?_⟩
    · exact steps_append_left (47 :: w) (steps_rule l2 v2 h2)
    · have := steps_rule l1 (w ++ 47 :: v2) h1
      simpa [List.append_assoc] using this
  · refine ⟨47 :: v2, ?_⟩
    have e1 : ¬ ((92 : UInt8) = 47) := by decide
    have e2 : ¬ ((46 : UInt8) = 47) := by decide
    have e3 : ¬ ((47 : UInt8) = 46) := by decide
    have e4 : ¬ ((47 : UInt8) = 92) := by decide
    have e5 : ¬ ((46 : UInt8) = 92) := by decide
    have e6 : ¬ ((92 : UInt8) = 46) := by decide
    have h1' := h1
    have h2' := h2
    simp only [rulePatterns, ascii_dotdot, ascii_backslash, ascii_slashes, List.mem_cons,
      List.mem_singleton, List.not_mem_nil, or_false] at h1' h2'
    rcases h1' with rfl | rfl | rfl <;> rcases h2' with rfl | rfl | rfl <;>
      rcases u2 with _ | ⟨x1, _ | ⟨x2, _ | ⟨x3, _ | ⟨x4, u2⟩⟩⟩⟩ <;>
      simp only [List.nil_append, List.cons_append, List.cons.injEq, List.nil_eq,
        List.append_eq_nil, and_false, false_and, reduceCtorEq] at hl <;>
      (try casesm* _ ∧ _) <;> subst_vars <;>
      (try simp only [List.nil_append, List.cons_append, List.cons.injEq, true_and,
        and_true, e1, e2, e3, e4, e5, e6, false_and, and_false] at hr) <;>
      subst_vars <;>
      constructor <;>
      first
      | exact Relation.ReflTransGen.refl
      | exact steps_rule [47, 46, 46, 47] _ (by decide)
      | exact steps_rule [92, 47] _ (by decide)
      | exact steps_rule [47, 47] _ (by decide)
      | exact steps_slash_rule [47, 46, 46, 47] _ (by decide)
      | exact steps_slash_rule [92, 47] _ (by decide)
      | exact steps_slash_rule [47, 47] _ (by decide)
      | exact steps_rule_slash [47, 46, 46, 47] _ (by decide)
      | exact steps_rule_slash [92, 47] _ (by decide)

theorem confluent_aux (u1 l1 v1 u2 l2 v2 : GoString) (h1 : l1 ∈ rulePatterns)
    (h2 : l2 ∈ rulePatterns) (h : u1 ++ (l1 ++ v1) = u2 ++ (l2 ++ v2)) :
    ∃ d, Relation.ReflTransGen Step (u1 ++ 47 :: v1) d ∧
      Relation.ReflTransGen Step (u2 ++ 47 :: v2) d := by
  induction u1 generalizing u2 with
  | nil => exact confluent_base l1 l2 v1 u2 v2 h1 h2 h
  | cons a u1 ih =>
    cases u2 with
    | nil =>
      obtain ⟨d, hd1, hd2⟩ := confluent_base l2 l1 v2 (a :: u1) v1 h2 h1 h.symm
      exact ⟨d, hd2, hd1⟩
    | cons a' u2 =>
      simp only [List.cons_append, List.cons.injEq] at h
      obtain ⟨rfl, h⟩ := h
      obtain ⟨d, hd1, hd2⟩ := ih u2 h
      exact ⟨a :: d, steps_cons a hd1, steps_cons a hd2⟩

theorem Step.exists_eq {s t : GoString} (h : Step s t) :
    ∃ u old v, old ∈ rulePatterns ∧ s = u ++ (old ++ v) ∧ t = u ++ 47 :: v := by
  cases h with
  | replace u old v hold => exact ⟨u, old, v, hold, by simp, by simp [ascii_slash]⟩

theorem Step.confluent {s a b : GoString} (ha : Step s a) (hb : Step s b) :
    ∃ d, Relation.ReflTransGen Step a d ∧ Relation.ReflTransGen Step b d := by
  obtain ⟨u1, l1, v1, h1, rfl, rfl⟩ := ha.exists_eq
  obtain ⟨u2, l2, v2, h2, hs, rfl⟩ := hb.exists_eq
  exact confluent_aux u1 l1 v1 u2 l2 v2 h1 h2 hs

theorem sanitizeLoop_spec (fuel : Nat) (s r : GoString) (h : sanitizeLoop fuel s = some r) :
    Relation.ReflTransGen Step s r ∧ needsPass r = false :=
  sanitizeLoop_invariant (fun x => Relation.ReflTransGen Step s x)
    (fun x hx _ => hx.trans (replacePass_steps x)) fuel s r h Relation.ReflTransGen.refl

theorem normal_form_unique (s n1 n2 : GoString) (h1 : Relation.ReflTransGen Step s n1)
    (h2 : Relation.ReflTransGen Step s n2) (hn1 : needsPass n1 = false)
    (hn2 : needsPass n2 = false) : n1 = n2 := by
  suffices h : ∀ n (s : GoString), s.length = n → ∀ n1 n2,
      Relation.ReflTransGen Step s n1 → Relation.ReflTransGen Step s n2 →
      needsPass n1 = false → needsPass n2 = false → n1 = n2 from
    h _ s rfl n1 n2 h1 h2 hn1 hn2
  intro n
  induction n using Nat.strong_induction_on with
  | _ n ih =>
    intro s hlen n1 n2 h1 h2 hn1 hn2
    rcases h1.cases_head with rfl | ⟨a, hsa, han1⟩
    · rcases h2.cases_head with rfl | ⟨b, hsb, _⟩
      · rfl
      · rw [hsb.needsPass] at hn1
        exact absurd hn1 (by simp)
    · rcases h2.cases_head with rfl | ⟨b, hsb, hbn2⟩
      · rw [hsa.needsPass] at hn2
        exact absurd hn2 (by simp)
      · obtain ⟨d, had, hbd⟩ := hsa.confluent hsb
        obtain ⟨r, hr⟩ := sanitizeLoop_total d.length d (le_refl _)
        obtain ⟨hdr, hnr⟩ := sanitizeLoop_spec _ _ _ hr
        have e1 : n1 = r :=
          ih a.length (hlen ▸ hsa.length_lt) a rfl n1 r han1 (had.trans hdr) hn1 hnr
        have e2 : n2 = r :=
          ih b.length (hlen ▸ hsb.length_lt) b rfl n2 r hbn2 (hbd.trans hdr) hn2 hnr
        rw [e1, e2]

theorem sanitizeLoop_unique (f1 f2 : Nat) (q p r1 r2 : GoString)
    (hqp : Relation.ReflTransGen Step q p) (h1 : sanitizeLoop f1 q = some r1)
    (h2 : sanitizeLoop f2 p = some r2) : r1 = r2 := by
  obtain ⟨s1, n1⟩ := sanitizeLoop_spec _ _ _ h1
  obtain ⟨s2, n2⟩ := sanitizeLoop_spec _ _ _ h2
  exact normal_form_unique q r1 r2 s1 (hqp.trans s2) n1 n2


/-! ## Occurrences of a pattern around the added dot and the added index file -/

theorem startsWith_of_append (pre t : GoString) (x : UInt8) (hx : x ∉ t) (r : GoString)
    (h : startsWith (r ++ t) (pre ++ [x]) = true) : startsWith r (pre ++ [x]) = true := by
  obtain ⟨rest, hrest⟩ := (startsWith_iff _ _).mp h
  rw [startsWith_iff]
  rcases List.append_eq_append_iff.mp hrest with ⟨a, ha, hta⟩ | ⟨c, hc, _⟩
  · rcases List.eq_nil_or_concat a with rfl | ⟨L, b, rfl⟩
    · exact ⟨[], by simpa using ha.symm⟩
    · exfalso
      have hb : b = x := by
        have h2 : pre ++ [x] = (r ++ L) ++ [b] := by simpa [List.append_assoc] using ha
        exact ((List.append_inj' h2 rfl).2 ▸ rfl : [x] = [b]) |> fun e => by simpa using e.symm
      apply hx
      rw [hta, hb.symm]
      simp
  · exact ⟨c, hc⟩

theorem Contains_of_append (pre t : GoString) (x : UInt8) (hx : x ∉ t) (r : GoString)
    (h : Contains r (pre ++ [x]) = false) : Contains (r ++ t) (pre ++ [x]) = false := by
  induction r with
  | nil =>
    cases hc : Contains ([] ++ t) (pre ++ [x]) with
    | false => rfl
    | true =>
      exfalso
      obtain ⟨u, v, huv⟩ := (Contains_iff _ _).mp hc
      apply hx
      have : t = u ++ (pre ++ [x]) ++ v := by simpa using huv
      rw [this]
      simp
  | cons b r ih =>
    simp only [Contains, Bool.or_eq_false_iff] at h
    have h1 : startsWith (b :: (r ++ t)) (pre ++ [x]) = false := by
      cases hs : startsWith (b :: (r ++ t)) (pre ++ [x]) with
      | false => rfl
      | true =>
        have := startsWith_of_append pre t x hx (b :: r) (by simpa using hs)
        rw [h.1] at this
        exact absurd this (by simp)
    show Contains (b :: (r ++ t)) (pre ++ [x]) = false
    rw [Contains_cons, h1, Bool.false_or]
    exact ih h.2

theorem Contains_of_suffix (u s pat : GoString) (h : Contains (u ++ s) pat = false) :
    Contains s pat = false := by
  cases hc : Contains s pat with
  | false => rfl
  | true => rw [Contains_of_append_left u s pat hc] at h; exact absurd h (by simp)

theorem index_no_slash : (47 : UInt8) ∉ ascii "index.html" := by decide

/-- The name `getFile` builds from the result of the loop, for a raw path that begins
with `/`. -/
theorem sanitize_of_loop (rest r : GoString)
    (h : sanitizeLoop (47 :: rest).length (47 :: rest) = some r) :
    ∃ r', r = 47 :: r' ∧ needsPass r = false ∧
      sanitize (47 :: rest) = .done (46 :: (r ++
        (if r.getLast? = some 47 then ascii "index.html" else []))) := by
  obtain ⟨⟨r', hr'⟩, hnp⟩ := sanitizeLoop_invariant (fun x => ∃ t, x = 47 :: t)
    (fun x hx _ => by obtain ⟨t, rfl⟩ := hx; exact replacePass_head_slash t)
    _ _ _ h ⟨rest, rfl⟩
  refine ⟨r', hr', hnp, ?_⟩
  subst hr'
  have hs : ascii "./" = [46, 47] := by decide
  unfold sanitize
  rw [h]
  show (match (47 :: r').getLast? with
    | none => Outcome.panicked
    | some last => Outcome.done (ascii "./" ++
        (if last = 47 then (47 :: r') ++ ascii "index.html" else 47 :: r').drop 1)) = _
  cases hl : (47 :: r').getLast? with
  | none => simp at hl
  | some last =>
    by_cases h47 : last = 47
    · simp [h47, hs]
    · simp [h47, hs]


theorem Contains_dot_append (r idx pre : GoString) (x p0 : UInt8) (pre' : GoString)
    (hx : x ∉ idx) (hpat : pre ++ [x] = p0 :: pre') (hp0 : p0 ≠ 46)
    (h : Contains r (pre ++ [x]) = false) :
    Contains (46 :: (r ++ idx)) (pre ++ [x]) = false := by
  have h1 := Contains_of_append pre idx x hx r h
  rw [Contains_cons, h1, Bool.or_false, hpat]
  have : ¬ ((46 : UInt8) = p0) := fun e => hp0 e.symm
  simp [startsWith, this]

theorem sanitizeLoop_of_not_needsPass (fuel : Nat) (s : GoString)
    (h : needsPass s = false) : sanitizeLoop fuel s = some s := by
  cases fuel <;> simp [sanitizeLoop, h]

/-- The sanitised form of a raw path that begins with `/`: a dot, the result `r` of the
loop, and the index file when `r` ends in `/`; neither `r` nor the sanitised form needs a
pass. -/
theorem sanitize_form (rest : GoString) :
    ∃ r r', sanitizeLoop (47 :: rest).length (47 :: rest) = some r ∧ r = 47 :: r' ∧
      needsPass r = false ∧
      sanitize (47 :: rest) = .done (46 :: (r ++
        (if r.getLast? = some 47 then ascii "index.html" else []))) ∧
      needsPass (46 :: (r ++
        (if r.getLast? = some 47 then ascii "index.html" else []))) = false := by
  obtain ⟨r, hr⟩ := sanitizeLoop_total (47 :: rest).length (47 :: rest) (le_refl _)
  obtain ⟨r', hr', hnp, hs⟩ := sanitize_of_loop rest r hr
  refine ⟨r, r', hr, hr', hnp, hs, ?_⟩
  have hx : (47 : UInt8) ∉ (if r.getLast? = some 47 then ascii "index.html" else []) := by
    split
    · exact index_no_slash
    · simp
  have hnp' := hnp
  simp only [needsPass, Bool.or_eq_false_iff, ascii_dotdot, ascii_backslash,
    ascii_slashes] at hnp' ⊢
  obtain ⟨⟨h1, h2⟩, h3⟩ := hnp'
  refine ⟨⟨?_, ?_⟩, ?_⟩
  · exact Contains_dot_append r _ [47, 46, 46] 47 47 [46, 46, 47] hx rfl (by decide) h1
  · exact Contains_dot_append r _ [92] 47 92 [47] hx rfl (by decide) h2
  · exact Contains_dot_append r _ [47] 47 47 [47] hx rfl (by decide) h3

theorem sanitizeLoop_passes (fuel : Nat) (s r : GoString)
    (h : sanitizeLoop fuel s = some r) :
    ∃ n, n ≤ fuel ∧ r = replacePass^[n] s ∧
      ∀ m, m < n → needsPass (replacePass^[m] s) = true := by
  induction fuel generalizing s with
  | zero =>
    cases hp : needsPass s with
    | false =>
      simp only [sanitizeLoop, hp] at h
      cases h
      exact ⟨0, le_refl _, rfl, fun m hm => absurd hm (Nat.not_lt_zero m)⟩
    | true => simp [sanitizeLoop, hp] at h
  | succ fuel ih =>
    cases hp : needsPass s with
    | false =>
      simp only [sanitizeLoop, hp] at h
      cases h
      exact ⟨0, Nat.zero_le _, rfl, fun m hm => absurd hm (Nat.not_lt_zero m)⟩
    | true =>
      simp only [sanitizeLoop, hp, if_true] at h
      obtain ⟨n, hn, hr, hall⟩ := ih (replacePass s) h
      refine ⟨n + 1, Nat.succ_le_succ hn, by simpa [Function.iterate_succ] using hr, ?_⟩
      intro m hm
      cases m with
      | zero => simpa using hp
      | succ m =>
        simpa [Function.iterate_succ] using hall m (Nat.lt_of_succ_lt_succ hm)

/-! ## The sanitiser: patterns, shape of the result, termination -/

/-- C13: for every raw path beginning with `/`, the loop ends on a path `r` that a further
pass leaves unchanged, and the sanitised path built from it contains no occurrence of
`/../`, of `\/` or of `//`. -/
theorem C13_sanitized_has_no_pattern (rest : GoString) :
    ∃ r name, sanitizeLoop (47 :: rest).length (47 :: rest) = some r ∧
      replacePass r = r ∧ sanitize (47 :: rest) = .done name ∧
      Contains name (ascii "/../") = false ∧ Contains name (ascii "\\/") = false ∧
      Contains name (ascii "//") = false := by
  obtain ⟨r, r', hr, _, hnp, hs, hname⟩ := sanitize_form rest
  simp only [needsPass, Bool.or_eq_false_iff] at hname
  exact ⟨r, _, hr, replacePass_of_not_needsPass r hnp, hs, hname.1.1, hname.1.2, hname.2⟩

/-- C14: for every raw path `p` beginning with `/`, with `r` the result of the loop on
`p`, the sanitised path is `.` followed by `r`, followed by `index.html` exactly when `r`
ends in `/`; when `p` contains none of the three patterns and does not end in `/`, the
sanitised path is `.` followed by `p`. -/
theorem C14_sanitized_shape (rest : GoString) :
    ∃ r, sanitizeLoop (47 :: rest).length (47 :: rest) = some r ∧
      sanitize (47 :: rest) = .done (ascii "." ++ r ++
        (if r.getLast? = some 47 then ascii "index.html" else [])) ∧
      (needsPass (47 :: rest) = false → (47 :: rest).getLast? ≠ some 47 →
        sanitize (47 :: rest) = .done (ascii "." ++ (47 :: rest))) := by
  obtain ⟨r, r', hr, _, _, hs, _⟩ := sanitize_form rest
  have hdot : ascii "." = [46] := by decide
  refine ⟨r, hr, by simpa [hdot] using hs, fun hnp hlast => ?_⟩
  have hr2 := sanitizeLoop_of_not_needsPass (47 :: rest).length (47 :: rest) hnp
  rw [hr] at hr2
  cases hr2
  rw [hs, if_neg hlast]
  simp [hdot]

/-- C17: whenever one of the three patterns is present, one pass of the loop body strictly
shortens the path; hence on every input the loop ends after a number of passes that is at
most the length of the input, on a path that contains none of the patterns. -/
theorem C17_loop_terminates (s : GoString) :
    (∀ x : GoString, needsPass x = true → (replacePass x).length < x.length) ∧
    ∃ n r, n ≤ s.length ∧ sanitizeLoop s.length s = some r ∧ r = replacePass^[n] s ∧
      (∀ m, m < n → needsPass (replacePass^[m] s) = true) ∧ needsPass r = false := by
  refine ⟨replacePass_length_lt, ?_⟩
  obtain ⟨r, hr⟩ := sanitizeLoop_total s.length s (le_refl _)
  obtain ⟨n, hn, hrn, hall⟩ := sanitizeLoop_passes _ _ _ hr
  exact ⟨n, r, hn, hr, hrn, hall, (sanitizeLoop_spec _ _ _ hr).2⟩

/-- C20: the raw path of the test `TestSanitizationComplexCombinations` is sanitised to
`./exams/cCtest.61c`. -/
theorem C20_literal_path :
    sanitize (ascii "/..//..///../\\/..//..//..///..//..//../exams//\\/cCtest.61c") =
      .done (ascii "./exams/cCtest.61c") := by
  decide


/-! ## Totality of the request path -/

theorem sanitize_total (raw : GoString) (h : raw ≠ []) : ∃ name, sanitize raw = .done name := by
  obtain ⟨r, hr⟩ := sanitizeLoop_total raw.length raw (le_refl _)
  have hne : r ≠ [] := (sanitizeLoop_invariant (fun x => x ≠ [])
    (fun x hx _ => replacePass_ne_nil x hx) _ _ _ hr h).1
  unfold sanitize
  rw [hr]
  cases hl : r.getLast? with
  | none => exact absurd (List.getLast?_eq_none_iff.mp hl) hne
  | some last => simp [hl]

theorem cacheMiss_total (u : Userlib) (cfg : Config) (ord : List GoString)
    (deadlineFirst : Bool) (c : cache) (hwf : WellFormed c) (fileReq : fileRequest) :
    ∃ h, cacheMiss u cfg ord deadlineFirst c fileReq = some h ∧
      h.reads = [fileReq.filename] := by
  unfold cacheMiss
  rcases hread : u.ReadFile cfg.workingDir fileReq.filename with ⟨data, _ | err⟩
  · obtain ⟨c', r, hstep, _, _⟩ :=
      storeStep_spec cfg.capacity c hwf (.Write fileReq.filename data ord)
    simp only [StoreOp.order, StoreOp.toCacheOp] at hstep
    simp [hstep]
  · simp

theorem operateCacheFile_total (u : Userlib) (cfg : Config) (ord : List GoString)
    (deadlineFirst : Bool) (c : cache) (hwf : WellFormed c) (fileReq : fileRequest) :
    ∃ h, operateCacheFile u cfg ord deadlineFirst c fileReq = some h := by
  unfold operateCacheFile
  rw [cacheMapOperatorStep_read]
  cases hv : (cacheRead c ⟨READ, fileReq.filename, none⟩).valid with
  | true => simp [hv]
  | false =>
    obtain ⟨h, hh, _⟩ := cacheMiss_total u cfg ord deadlineFirst c hwf fileReq
    exact ⟨h, by simp [hv, hh]⟩

/-! ## The control plane -/

/-- C11: after a clear, whatever cache the store agent held, the cache of the new store
agent is empty: a stats request is answered with count 0 and size 0, and a request for
any name (hence for a name cached before the clear) misses and makes a backing read. -/
theorem C11_clear_empties (u : Userlib) (cfg : Config) (ord : List GoString)
    (deadlineFirst : Bool) (c : cache) (raw name : GoString)
    (hname : sanitize raw = .done name) :
    (cacheClear u c).1 = emptyCache ∧
    cacheMapOperatorStep cfg.capacity ord (cacheClear u c).1 ⟨STATS, [], none⟩ =
      some ((cacheClear u c).1, some ⟨[], none, false, 0, 0⟩) ∧
    (cacheRead (cacheClear u c).1 ⟨READ, name, none⟩).valid = false ∧
    ∃ h, getFile u cfg ord deadlineFirst (cacheClear u c).1 raw = .done h ∧
      h.reads = [name] := by
  have hmiss : (cacheRead emptyCache ⟨READ, name, none⟩).valid = false := rfl
  refine ⟨rfl, ?_, hmiss, ?_⟩
  · rw [cacheMapOperatorStep_stats]
    rfl
  · obtain ⟨h, hh, hreads⟩ :=
      cacheMiss_total u cfg ord deadlineFirst emptyCache wellFormed_emptyCache ⟨name⟩
    refine ⟨h, ?_, hreads⟩
    show getFile u cfg ord deadlineFirst emptyCache raw = .done h
    rw [getFile_miss u cfg ord deadlineFirst emptyCache raw name hname hmiss, hh]

theorem C11_clear_empties_witness :
    (cacheClear testUserlib oneEntryCache).1 = emptyCache ∧
    cacheMapOperatorStep testConfig.capacity [] (cacheClear testUserlib oneEntryCache).1
        ⟨STATS, [], none⟩ =
      some ((cacheClear testUserlib oneEntryCache).1, some ⟨[], none, false, 0, 0⟩) ∧
    (cacheRead (cacheClear testUserlib oneEntryCache).1 ⟨READ, ascii "./a", none⟩).valid =
      false ∧
    ∃ h, getFile testUserlib testConfig [] false (cacheClear testUserlib oneEntryCache).1
        (ascii "/a") = .done h ∧ h.reads = [ascii "./a"] :=
  C11_clear_empties testUserlib testConfig [] false oneEntryCache (ascii "/a") (ascii "./a")
    (by decide)

/-- C12: for every cache, the answer to a status request is `fmt.Sprintf` applied to the
capacity template and, in this order, the number of entries of the map, `cache.size` and
the configured capacity; the cache is left as it was. -/
theorem C12_status_response (Sprintf : GoString → Int → Int → Int → GoString) (u : Userlib)
    (cfg : Config) (ord : List GoString) (c : cache) :
    getCacheStatus Sprintf u cfg ord c =
      some (c, Sprintf u.CapacityString (mapLen c.table) c.size cfg.capacity) := by
  unfold getCacheStatus
  rw [cacheMapOperatorStep_stats]
  rfl

/-! ## The sanitiser: equivalent spellings, repeated sanitisation, panics, `..` -/

/-- C15: for every raw path and every occurrence of `/` in it, replacing that `/` by `//`,
by `\/` or by `/../` does not change the outcome of the sanitiser. -/
theorem C15_equivalent_spellings (u v old : GoString) (hold : old ∈ rulePatterns) :
    sanitize (u ++ old ++ v) = sanitize (u ++ ascii "/" ++ v) := by
  obtain ⟨r1, h1⟩ := sanitizeLoop_total (u ++ old ++ v).length (u ++ old ++ v) (le_refl _)
  obtain ⟨r2, h2⟩ :=
    sanitizeLoop_total (u ++ ascii "/" ++ v).length (u ++ ascii "/" ++ v) (le_refl _)
  have hstep : Relation.ReflTransGen Step (u ++ old ++ v) (u ++ ascii "/" ++ v) :=
    Relation.ReflTransGen.single (Step.replace u old v hold)
  have heq : r1 = r2 := sanitizeLoop_unique _ _ _ _ _ _ hstep h1 h2
  unfold sanitize
  rw [h1, h2, heq]

theorem C15_equivalent_spellings_witness :
    ascii "/../" ∈ rulePatterns ∧
    sanitize (ascii "/exams" ++ ascii "/../" ++ ascii "cCtest.61c") =
      sanitize (ascii "/exams" ++ ascii "/" ++ ascii "cCtest.61c") :=
  ⟨by decide, C15_equivalent_spellings (ascii "/exams") (ascii "cCtest.61c") (ascii "/../")
    (by decide)⟩


theorem getLast?_append_of_ne_nil (l t : GoString) (ht : t ≠ []) :
    (l ++ t).getLast? = t.getLast? := by
  induction l with
  | nil => rfl
  | cons a l ih =>
    cases hlt : l ++ t with
    | nil => exact absurd (List.append_eq_nil.mp hlt).2 ht
    | cons b m => rw [List.cons_append, hlt, List.getLast?_cons_cons, ← hlt, ih]

theorem getFile_total (u : Userlib) (cfg : Config) (ord : List GoString)
    (deadlineFirst : Bool) (c : cache) (hwf : WellFormed c) (raw : GoString)
    (hraw : raw ≠ []) :
    ∃ name h, sanitize raw = .done name ∧
      getFile u cfg ord deadlineFirst c raw = .done h := by
  obtain ⟨name, hname⟩ := sanitize_total raw hraw
  obtain ⟨h, hh⟩ := operateCacheFile_total u cfg ord deadlineFirst c hwf ⟨name⟩
  exact ⟨name, h, hname, by simp [getFile, hname, hh]⟩

/-- C18, the claim as stated fails: on the empty raw path the last-character test of
line 108 indexes out of range, so `getFile` panics and no response is produced. -/
theorem C18_empty_path_panics :
    sanitize [] = .panicked ∧
    getFile testUserlib testConfig [] false emptyCache [] = .panicked := by
  decide

/-- C18 (amended): for every non-empty raw path the request is handled without a run-time
panic: the path reduced by the loop is not empty, so the name of the request is built,
and on a well-formed store the coordinator produces a response. -/
theorem C18_nonempty_path_no_panic (u : Userlib) (cfg : Config) (ord : List GoString)
    (deadlineFirst : Bool) (c : cache) (hwf : WellFormed c) (raw : GoString)
    (hraw : raw ≠ []) :
    ∃ name h, sanitize raw = .done name ∧
      getFile u cfg ord deadlineFirst c raw = .done h :=
  getFile_total u cfg ord deadlineFirst c hwf raw hraw

theorem C18_nonempty_path_no_panic_witness :
    WellFormed oneEntryCache ∧ ascii "\\/" ≠ [] ∧
    ∃ name h, sanitize (ascii "\\/") = .done name ∧
      getFile testUserlib testConfig [] false oneEntryCache (ascii "\\/") = .done h :=
  ⟨wellFormed_oneEntryCache, by decide,
    C18_nonempty_path_no_panic testUserlib testConfig [] false oneEntryCache
      wellFormed_oneEntryCache (ascii "\\/") (by decide)⟩

/-- C16, the claim as stated fails: `/a` is sanitised to `./a`, and the sanitiser applied
to `./a` returns `.//a`. -/
theorem C16_resanitize_changes :
    sanitize (ascii "/a") = .done (ascii "./a") ∧
    sanitize (ascii "./a") = .done (ascii ".//a") ∧
    sanitize (ascii "./a") ≠ .done (ascii "./a") := by
  decide

/-- C16 (amended): for every raw path beginning with `/`, the sanitised form is `.`
followed by some `t`; the loop leaves it unchanged and it does not end in `/`, so the
index file is not added; the sanitiser as a whole, which drops the first byte and puts
`./` in front, returns `./` followed by `t`. -/
theorem C16_resanitize_shape (rest : GoString) :
    ∃ s t, sanitize (47 :: rest) = .done s ∧ s = ascii "." ++ t ∧
      sanitizeLoop s.length s = some s ∧ s.getLast? ≠ some 47 ∧
      sanitize s = .done (ascii "./" ++ t) := by
  obtain ⟨r, r', _, hr', _, hs, hnp⟩ := sanitize_form rest
  have hdot : ascii "." = [46] := by decide
  have hds : ascii "./" = [46, 47] := by decide
  have hloop := sanitizeLoop_of_not_needsPass
    (46 :: (r ++ (if r.getLast? = some 47 then ascii "index.html" else []))).length _ hnp
  have hlast : (46 :: (r ++ (if r.getLast? = some 47 then ascii "index.html" else
      []))).getLast? ≠ some 47 := by
    subst hr'
    by_cases h47 : (47 :: r').getLast? = some 47
    · rw [if_pos h47]
      have hidx : ascii "index.html" = [105, 110, 100, 101, 120, 46, 104, 116, 109, 108] := by
        decide
      have hl : (46 :: (47 :: r' ++ ascii "index.html")).getLast? =
          (ascii "index.html").getLast? :=
        getLast?_append_of_ne_nil (46 :: 47 :: r') (ascii "index.html")
          (by rw [hidx]; simp)
      rw [hl, hidx]
      decide
    · rw [if_neg h47]
      simpa [List.getLast?_cons_cons] using h47
  refine ⟨_, r ++ (if r.getLast? = some 47 then ascii "index.html" else []), hs,
    by simp [hdot], hloop, hlast, ?_⟩
  unfold sanitize
  rw [hloop]
  cases hl : (46 :: (r ++ (if r.getLast? = some 47 then ascii "index.html" else
      []))).getLast? with
  | none => simp at hl
  | some last =>
    have hne : last ≠ 47 := fun e => hlast (by rw [hl, e])
    simp [hl, hne, hds]


/-! ## Segments of a path -/

theorem segments_ne_nil (s : GoString) : segments s ≠ [] := by
  induction s with
  | nil => simp [segments]
  | cons b s ih =>
    by_cases hb : b = 47
    · simp [segments, hb]
    · cases hs : segments s with
      | nil => exact absurd hs ih
      | cons seg segs => simp [segments, hb, hs]

theorem segments_append (seg : GoString) (h : (47 : UInt8) ∉ seg) (s : GoString) :
    segments (seg ++ 47 :: s) = seg :: segments s := by
  induction seg with
  | nil => simp [segments]
  | cons b seg ih =>
    have hb : b ≠ 47 := fun e => h (by simp [e])
    have hseg : (47 : UInt8) ∉ seg := fun e => h (List.mem_cons_of_mem _ e)
    simp [segments, hb, ih hseg]

theorem segments_of_no_slash (seg : GoString) (h : (47 : UInt8) ∉ seg) :
    segments seg = [seg] := by
  induction seg with
  | nil => simp [segments]
  | cons b seg ih =>
    have hb : b ≠ 47 := fun e => h (by simp [e])
    have hseg : (47 : UInt8) ∉ seg := fun e => h (List.mem_cons_of_mem _ e)
    simp [segments, hb, ih hseg]

theorem exists_first_segment (s : GoString) :
    (47 : UInt8) ∉ s ∨ ∃ seg s', (47 : UInt8) ∉ seg ∧ s = seg ++ 47 :: s' := by
  induction s with
  | nil => exact Or.inl (by simp)
  | cons b s ih =>
    by_cases hb : b = 47
    · exact Or.inr ⟨[], s, by simp, by simp [hb]⟩
    · rcases ih with hno | ⟨seg, s', hseg, rfl⟩
      · refine Or.inl ?_
        simp only [List.mem_cons, not_or]
        exact ⟨fun e => hb e.symm, hno⟩
      · refine Or.inr ⟨b :: seg, s', ?_, by simp⟩
        simp only [List.mem_cons, not_or]
        exact ⟨fun e => hb e.symm, hseg⟩

/-- Behind a `/`, in a path without `/../`, no segment but the last is `..`. -/
theorem no_inner_dotdot (s : GoString) (h : Contains (47 :: s) [47, 46, 46, 47] = false) :
    ([46, 46] : GoString) ∉ (segments s).dropLast := by
  suffices hgen : ∀ n (s : GoString), s.length = n →
      Contains (47 :: s) [47, 46, 46, 47] = false →
      ([46, 46] : GoString) ∉ (segments s).dropLast from hgen _ s rfl h
  intro n
  induction n using Nat.strong_induction_on with
  | _ n ih =>
    intro s hlen h
    rcases exists_first_segment s with hno | ⟨seg, s', hseg, rfl⟩
    · simp [segments_of_no_slash s hno]
    · rw [segments_append seg hseg s']
      obtain ⟨x, xs, hx⟩ : ∃ x xs, segments s' = x :: xs := by
        cases hs : segments s' with
        | nil => exact absurd hs (segments_ne_nil s')
        | cons x xs => exact ⟨x, xs, rfl⟩
      have hrec : ([46, 46] : GoString) ∉ (segments s').dropLast := by
        refine ih s'.length ?_ s' rfl ?_
        · rw [← hlen]; simp; omega
        · have : 47 :: (seg ++ 47 :: s') = (47 :: seg) ++ (47 :: s') := by simp
          rw [this] at h
          exact Contains_of_suffix _ _ _ h
      rw [hx] at hrec ⊢
      rw [List.dropLast_cons₂]
      simp only [List.mem_cons, not_or]
      refine ⟨fun e => ?_, hrec⟩
      subst e
      rw [Contains_cons] at h
      have hst : startsWith (47 :: ([46, 46] ++ 47 :: s')) [47, 46, 46, 47] = true :=
        (startsWith_iff _ _).mpr ⟨s', rfl⟩
      rw [hst] at h
      simp at h

/-- C19, the claim as stated fails: the raw path `/..` is sanitised to `./..`, whose last
segment is `..`. -/
theorem C19_trailing_dotdot_kept :
    sanitize (ascii "/..") = .done (ascii "./..") ∧
    ascii ".." ∈ segments (ascii "./..") := by
  decide

/-- C19 (amended): for every raw path beginning with `/`, no `/`-delimited segment of the
sanitised path other than the last one is `..`. -/
theorem C19_no_inner_dotdot (rest : GoString) :
    ∃ name, sanitize (47 :: rest) = .done name ∧
      ascii ".." ∉ (segments name).dropLast := by
  obtain ⟨r, r', _, hr', _, hs, hnp⟩ := sanitize_form rest
  refine ⟨_, hs, ?_⟩
  subst hr'
  have hdd : ascii ".." = [46, 46] := by decide
  simp only [needsPass, Bool.or_eq_false_iff, ascii_dotdot] at hnp
  have hc : Contains (47 :: (r' ++
      (if (47 :: r').getLast? = some 47 then ascii "index.html" else [])))
      [47, 46, 46, 47] = false :=
    Contains_of_suffix [46] _ _ hnp.1.1
  have hinner := no_inner_dotdot _ hc
  have hseg : segments (46 :: (47 :: r' ++
      (if (47 :: r').getLast? = some 47 then ascii "index.html" else []))) =
      [46] :: segments (r' ++
        (if (47 :: r').getLast? = some 47 then ascii "index.html" else [])) :=
    segments_append [46] (by decide) _
  obtain ⟨x, xs, hx⟩ : ∃ x xs, segments (r' ++
      (if (47 :: r').getLast? = some 47 then ascii "index.html" else [])) = x :: xs := by
    cases hsg : segments (r' ++
        (if (47 :: r').getLast? = some 47 then ascii "index.html" else [])) with
    | nil => exact absurd hsg (segments_ne_nil _)
    | cons x xs => exact ⟨x, xs, rfl⟩
  rw [hseg, hdd]
  rw [hx] at hinner ⊢
  rw [List.dropLast_cons₂]
  simp only [List.mem_cons, not_or]
  exact ⟨by decide, hinner⟩


/-! ## The handler's reply -/

theorem headerGet_headerSet (key value : GoString) (h : List (GoString × GoString)) :
    headerGet key (headerSet key value h) = some value := by
  simp [headerSet, headerGet]

/-- C21, the claim as stated fails for the body of an error reply: `http.Error` prints the
error text followed by a newline, so the body is not the error text itself. -/
theorem C21_error_body_has_newline :
    ∃ w, handlerReply testUserlib ⟨ascii "./x", some [], some (ascii "file error")⟩
        emptyResponseWriter = some w ∧
      w.statusCode = testUserlib.FILEERRORCODE ∧
      w.data = ascii "file error\n" ∧ w.data ≠ ascii "file error" :=
  ⟨_, rfl, rfl, by decide, by decide⟩

/-- C21 (amended): for every file response handed to the handler: without an error the
status is the success code, the body written is exactly the response bytes and the
content type is the one derived from the response name; with an error whose text equals
the timeout string the status is the timeout code, with any other error it is the
file-error code, and in both error cases the body written is the error text followed by
a newline. -/
theorem C21_handler_reply (u : Userlib) (filename : GoString) (w : ResponseWriter) :
    (∀ bytes, ∃ w', handlerReply u ⟨filename, some bytes, none⟩ w = some w' ∧
      w'.statusCode = u.SUCCESSCODE ∧ w'.data = w.data ++ bytes ∧
      headerGet u.ContextType w'.header = some (u.GetContentType filename)) ∧
    (∀ data errStr, ∃ w', handlerReply u ⟨filename, data, some errStr⟩ w = some w' ∧
      (errStr = u.TimeoutString → w'.statusCode = u.TIMEOUTERRORCODE) ∧
      (errStr ≠ u.TimeoutString → w'.statusCode = u.FILEERRORCODE) ∧
      w'.data = w.data ++ errStr ++ ascii "\n") := by
  refine ⟨fun bytes => ⟨_, rfl, rfl, rfl, headerGet_headerSet _ _ _⟩, fun data errStr => ?_⟩
  by_cases h : errStr = u.TimeoutString
  · exact ⟨httpError w errStr u.TIMEOUTERRORCODE, by simp [handlerReply, h],
      fun _ => rfl, fun hne => absurd h hne, rfl⟩
  · exact ⟨httpError w errStr u.FILEERRORCODE, by simp [handlerReply, h],
      fun he => absurd he h, fun _ => rfl, rfl⟩

/-! ## Reads and stats -/

/-- C26: on a well-formed store a read and a stats request leave the cache as it was; the
read of `name` is answered with the entry stored under `name` (valid, with its bytes)
when `name` is a key of the map, and with the invalid entry of line 216 otherwise, so
the answer is valid exactly when `name` is present. -/
theorem C26_read_stats_frame (capacity : Int) (ord : List GoString) (c : cache)
    (hwf : WellFormed c) (name : GoString) :
    ∃ entry, cacheMapOperatorStep capacity ord c ⟨READ, name, none⟩ =
        some (c, some entry) ∧
      (entry.valid = true ↔ name ∈ mapKeys c.table) ∧
      (∀ e, mapLookup name c.table = some e →
        entry = e ∧ entry.valid = true ∧ entry.data ≠ none) ∧
      (name ∉ mapKeys c.table → entry = ⟨[], none, false, -1, -1⟩) ∧
      cacheMapOperatorStep capacity ord c ⟨STATS, [], none⟩ =
        some (c, some ⟨[], none, false, c.size, mapLen c.table⟩) := by
  refine ⟨cacheRead c ⟨READ, name, none⟩, cacheMapOperatorStep_read _ _ _ _ _, ?_, ?_, ?_,
    by rw [cacheMapOperatorStep_stats]; rfl⟩
  · cases hl : mapLookup name c.table with
    | none =>
      have hnot := (mapLookup_eq_none_iff _ _).mp hl
      simp [cacheRead, hl, hnot]
    | some e =>
      have hin : name ∈ mapKeys c.table := by
        by_contra hnot
        rw [(mapLookup_eq_none_iff _ _).mpr hnot] at hl
        exact absurd hl (by simp)
      have hv : e.valid = true := hwf.valid _ (mapLookup_mem hl)
      simp [cacheRead, hl, hin, hv]
  · intro e hl
    have hv : e.valid = true := hwf.valid _ (mapLookup_mem hl)
    have hd : e.data ≠ none := hwf.hasData _ (mapLookup_mem hl)
    simp [cacheRead, hl, hv, hd]
  · intro hnot
    simp [cacheRead, (mapLookup_eq_none_iff _ _).mpr hnot]

theorem C26_read_stats_frame_witness :
    WellFormed oneEntryCache ∧
    ∃ entry, cacheMapOperatorStep 10 [] oneEntryCache ⟨READ, ascii "a", none⟩ =
        some (oneEntryCache, some entry) ∧
      (entry.valid = true ↔ ascii "a" ∈ mapKeys oneEntryCache.table) ∧
      (∀ e, mapLookup (ascii "a") oneEntryCache.table = some e →
        entry = e ∧ entry.valid = true ∧ entry.data ≠ none) ∧
      (ascii "a" ∉ mapKeys oneEntryCache.table → entry = ⟨[], none, false, -1, -1⟩) ∧
      cacheMapOperatorStep 10 [] oneEntryCache ⟨STATS, [], none⟩ =
        some (oneEntryCache, some ⟨[], none, false, oneEntryCache.size,
          mapLen oneEntryCache.table⟩) :=
  ⟨wellFormed_oneEntryCache,
    C26_read_stats_frame 10 [] oneEntryCache wellFormed_oneEntryCache (ascii "a")⟩

/-! ## The sanitiser: index safety and the first byte -/

/-- C27: the loop maps a non-empty path to a non-empty path and a path beginning with `/`
to a path beginning with `/`; hence for every non-empty raw path the name of the request
is built without an index out of range, and for every raw path beginning with `/` the
sanitised path begins with `./`. -/
theorem C27_loop_keeps_shape (s : GoString) :
    ∃ r, sanitizeLoop s.length s = some r ∧
      (s ≠ [] → r ≠ [] ∧ ∃ name, sanitize s = .done name) ∧
      (∀ rest, s = 47 :: rest →
        (∃ r', r = 47 :: r') ∧ ∃ t, sanitize s = .done (ascii "./" ++ t)) := by
  obtain ⟨r, hr⟩ := sanitizeLoop_total s.length s (le_refl _)
  refine ⟨r, hr, fun hne => ⟨?_, sanitize_total s hne⟩, fun rest hs => ?_⟩
  · exact (sanitizeLoop_invariant (fun x => x ≠ [])
      (fun x hx _ => replacePass_ne_nil x hx) _ _ _ hr hne).1
  · subst hs
    obtain ⟨r2, r', hr2, hr', _, hsan, _⟩ := sanitize_form rest
    rw [hr] at hr2
    cases hr2
    refine ⟨⟨r', hr'⟩, r' ++ (if r.getLast? = some 47 then ascii "index.html" else []), ?_⟩
    rw [hsan, hr']
    have hds : ascii "./" = [46, 47] := by decide
    simp [hds]

/-- C29: `getFile` drops the first byte of the reduced path whatever it is: the raw path
`a../x`, which does not begin with `/`, is sanitised to `./../x`, which begins with
`./../`. -/
theorem C29_first_byte_dropped :
    sanitize (ascii "a../x") = .done (ascii "./../x") ∧
    (ascii "a../x").head? ≠ some 47 ∧
    startsWith (ascii "./../x") (ascii "./../") = true ∧
    ∀ (s : GoString) (b : UInt8) (r' : GoString),
      sanitizeLoop s.length s = some (b :: r') →
      sanitize s = .done (ascii "./" ++ r' ++
        (if (b :: r').getLast? = some 47 then ascii "index.html" else [])) := by
  refine ⟨by decide, by decide, by decide, fun s b r' h => ?_⟩
  unfold sanitize
  rw [h]
  show (match (b :: r').getLast? with
    | none => Outcome.panicked
    | some last => Outcome.done (ascii "./" ++
        (if last = 47 then (b :: r') ++ ascii "index.html" else b :: r').drop 1)) = _
  cases hl : (b :: r').getLast? with
  | none => simp at hl
  | some last =>
    by_cases h47 : last = 47
    · simp [h47]
    · simp [h47]


/-! ## Timeouts and nil data -/

/-- C22, the claim as stated fails when the bytes read are longer than the capacity: the
deadline fires first, the caller receives the timeout response, the write is issued and
dropped, and the next request for the name misses and reads the file again. -/
theorem C22_oversized_after_timeout :
    ∃ h h', getFile testUserlib smallConfig [] true emptyCache (ascii "/largefile.61c") =
        .done h ∧
      h.response = ⟨ascii "./largefile.61c", none, some testUserlib.TimeoutString⟩ ∧
      h.cache = emptyCache ∧
      getFile testUserlib smallConfig [] false h.cache (ascii "/largefile.61c") = .done h' ∧
      h'.reads = [ascii "./largefile.61c"] :=
  ⟨_, _, rfl, by decide, by decide, rfl, by decide⟩

/-- C22 (amended): when a request misses on a well-formed store and the deadline fires
before the backing read completes, the caller receives the timeout response and the cache
at that moment is the one before the request; the read is carried on, and when it
returns `bytes` with a nil error the write of `(name, bytes)` is handled by the store, so
that, when `bytes` is no longer than the capacity, a later request for the name is
answered from the cache with `bytes` and makes no backing read. -/
theorem C22_timeout_then_cached (u u' : Userlib) (cfg : Config) (ord ord' : List GoString)
    (deadlineFirst' : Bool) (c : cache) (hwf : WellFormed c) (raw name : GoString)
    (bytes : List UInt8) (hname : sanitize raw = .done name)
    (hmiss : (cacheRead c ⟨READ, name, none⟩).valid = false)
    (hread : u.ReadFile cfg.workingDir name = (bytes, none))
    (hfit : (bytes.length : Int) ≤ cfg.capacity) :
    ∃ h, getFile u cfg ord true c raw = .done h ∧
      h.response = ⟨name, none, some u.TimeoutString⟩ ∧ h.cacheAtReply = c ∧
      cacheMapOperatorStep cfg.capacity ord c ⟨WRITE, name, some bytes⟩ =
        some (h.cache, none) ∧
      h.reads = [name] ∧
      getFile u' cfg ord' deadlineFirst' h.cache raw =
        .done ⟨⟨name, some bytes, none⟩, h.cache, h.cache, []⟩ := by
  obtain ⟨c2, hw, _, _, _, _⟩ :=
    cacheWrite_spec cfg.capacity ord c hwf WRITE name bytes hfit
  have hstep : cacheMapOperatorStep cfg.capacity ord c ⟨WRITE, name, some bytes⟩ =
      some (⟨(name, ⟨name, some bytes, true, -1, -1⟩) :: c2.table,
        c2.size + bytes.length⟩, none) := by
    simp [cacheMapOperatorStep_write, hw]
  refine ⟨⟨⟨name, none, some u.TimeoutString⟩, c,
    ⟨(name, ⟨name, some bytes, true, -1, -1⟩) :: c2.table, c2.size + bytes.length⟩,
    [name]⟩, ?_, rfl, rfl, hstep, rfl, ?_⟩
  · simp [getFile_miss u cfg ord true c raw name hname hmiss, cacheMiss, hread, hstep]
  · have hhit := operateCacheFile_hit u' cfg ord' deadlineFirst'
      ⟨(name, ⟨name, some bytes, true, -1, -1⟩) :: c2.table, c2.size + bytes.length⟩ name
      ⟨name, some bytes, true, -1, -1⟩ (mapLookup_cons_self _ _ _) rfl
    simp [getFile, hname, hhit]

theorem C22_timeout_then_cached_witness :
    ∃ h, getFile testUserlib testConfig [] true emptyCache (ascii "/README.md") = .done h ∧
      h.response = ⟨ascii "./README.md", none, some testUserlib.TimeoutString⟩ ∧
      h.cacheAtReply = emptyCache ∧
      cacheMapOperatorStep testConfig.capacity [] emptyCache ⟨WRITE, ascii "./README.md",
        some (ascii "CS61C is the best class in the world! Emperor Nick shall reign supreme.")⟩ =
        some (h.cache, none) ∧
      h.reads = [ascii "./README.md"] ∧
      getFile testUserlib testConfig [] false h.cache (ascii "/README.md") =
        .done ⟨⟨ascii "./README.md", some
          (ascii "CS61C is the best class in the world! Emperor Nick shall reign supreme."),
          none⟩, h.cache, h.cache, []⟩ :=
  C22_timeout_then_cached testUserlib testUserlib testConfig [] [] false emptyCache
    wellFormed_emptyCache (ascii "/README.md") (ascii "./README.md")
    (ascii "CS61C is the best class in the world! Emperor Nick shall reign supreme.")
    (by decide) (by decide) (by decide) (by decide)

theorem handlerReply_total (u : Userlib) (response : fileResponse) (w : ResponseWriter)
    (h : response.responseError = none → response.responseData ≠ none) :
    ∃ w', handlerReply u response w = some w' := by
  cases he : response.responseError with
  | some errStr =>
    by_cases ht : errStr = u.TimeoutString
    · exact ⟨httpError w errStr u.TIMEOUTERRORCODE, by simp [handlerReply, he, ht]⟩
    · exact ⟨httpError w errStr u.FILEERRORCODE, by simp [handlerReply, he, ht]⟩
  | none =>
    obtain ⟨b, hb⟩ := Option.ne_none_iff_exists'.mp (h he)
    exact ⟨⟨headerSet u.ContextType (u.GetContentType response.filename) w.header,
      w.data ++ b, u.SUCCESSCODE⟩, by simp [handlerReply, he, hb]⟩

theorem cacheMiss_response (u : Userlib) (cfg : Config) (ord : List GoString)
    (deadlineFirst : Bool) (c : cache) (fileReq : fileRequest) (h : Handled)
    (hh : cacheMiss u cfg ord deadlineFirst c fileReq = some h) :
    (h.response.responseError = none → h.response.responseData ≠ none) ∧
    (h.response.responseData = none →
      h.response = ⟨fileReq.filename, none, some u.TimeoutString⟩) := by
  unfold cacheMiss at hh
  rcases hread : u.ReadFile cfg.workingDir fileReq.filename with ⟨data, _ | err⟩
  · rw [hread] at hh
    cases hstep : cacheMapOperatorStep cfg.capacity ord c
        ⟨WRITE, fileReq.filename, some data⟩ with
    | none => simp [hstep] at hh
    | some p =>
      simp only [hstep, Option.some.injEq] at hh
      subst hh
      cases deadlineFirst <;> simp
  · rw [hread] at hh
    simp only [Option.some.injEq] at hh
    subst hh
    cases deadlineFirst <;> simp

theorem operateCacheFile_response (u : Userlib) (cfg : Config) (ord : List GoString)
    (deadlineFirst : Bool) (c : cache) (hwf : WellFormed c) (fileReq : fileRequest)
    (h : Handled) (hh : operateCacheFile u cfg ord deadlineFirst c fileReq = some h) :
    (h.response.responseError = none → h.response.responseData ≠ none) ∧
    (h.response.responseData = none →
      h.response = ⟨fileReq.filename, none, some u.TimeoutString⟩) := by
  unfold operateCacheFile at hh
  rw [cacheMapOperatorStep_read] at hh
  cases hv : (cacheRead c ⟨READ, fileReq.filename, none⟩).valid with
  | false =>
    simp only [hv] at hh
    exact cacheMiss_response u cfg ord deadlineFirst c fileReq h (by simpa using hh)
  | true =>
    simp only [hv, if_true, Option.some.injEq] at hh
    subst hh
    have hd : (cacheRead c ⟨READ, fileReq.filename, none⟩).data ≠ none := by
      cases hl : mapLookup fileReq.filename c.table with
      | none => simp [cacheRead, hl] at hv
      | some e => simpa [cacheRead, hl] using hwf.hasData _ (mapLookup_mem hl)
    exact ⟨fun _ => hd, fun hn => absurd hn hd⟩

/-- C28: on a well-formed store, an entry a read reports as valid has a non-nil data
pointer; every response `getFile` returns without an error (from a hit or from a
successful miss) has non-nil data, so the handler's dereference at line 59 does not
fail and the handler replies; a response with nil data is the timeout response, which
carries the timeout error. -/
theorem C28_no_nil_dereference (u : Userlib) (cfg : Config) (ord : List GoString)
    (deadlineFirst : Bool) (c : cache) (hwf : WellFormed c) (raw : GoString) (h : Handled)
    (w : ResponseWriter) (hget : getFile u cfg ord deadlineFirst c raw = .done h) :
    (∀ name, (cacheRead c ⟨READ, name, none⟩).valid = true →
      (cacheRead c ⟨READ, name, none⟩).data ≠ none) ∧
    (h.response.responseError = none → h.response.responseData ≠ none) ∧
    (h.response.responseData = none →
      ∃ name, sanitize raw = .done name ∧
        h.response = ⟨name, none, some u.TimeoutString⟩) ∧
    ∃ w', handler u cfg ord deadlineFirst c raw w = .done (w', h) := by
  have hread : ∀ name, (cacheRead c ⟨READ, name, none⟩).valid = true →
      (cacheRead c ⟨READ, name, none⟩).data ≠ none := by
    intro name hv
    cases hl : mapLookup name c.table with
    | none => simp [cacheRead, hl] at hv
    | some e => simpa [cacheRead, hl] using hwf.hasData _ (mapLookup_mem hl)
  unfold getFile at hget
  cases hs : sanitize raw with
  | diverged => simp [hs] at hget
  | panicked => simp [hs] at hget
  | done name =>
    simp only [hs] at hget
    cases ho : operateCacheFile u cfg ord deadlineFirst c ⟨name⟩ with
    | none => simp [ho] at hget
    | some h0 =>
      simp only [ho, Outcome.done.injEq] at hget
      subst hget
      obtain ⟨h1, h2⟩ := operateCacheFile_response u cfg ord deadlineFirst c hwf ⟨name⟩ h0 ho
      refine ⟨hread, h1, fun hn => ⟨name, rfl, h2 hn⟩, ?_⟩
      have hg : getFile u cfg ord deadlineFirst c raw = .done h0 := by
        simp [getFile, hs, ho]
      obtain ⟨w', hw'⟩ := handlerReply_total u h0.response w h1
      exact ⟨w', by simp [handler, hg, hw']⟩

theorem C28_no_nil_dereference_witness :
    WellFormed oneEntryCache ∧
    ∃ h, getFile testUserlib testConfig [] true oneEntryCache (ascii "/README.md") =
        .done h ∧
      (h.response.responseError = none → h.response.responseData ≠ none) ∧
      (h.response.responseData = none →
        ∃ name, sanitize (ascii "/README.md") = .done name ∧
          h.response = ⟨name, none, some testUserlib.TimeoutString⟩) ∧
      ∃ w', handler testUserlib testConfig [] true oneEntryCache (ascii "/README.md")
        emptyResponseWriter = .done (w', h) :=
  ⟨wellFormed_oneEntryCache, _, rfl,
    (C28_no_nil_dereference testUserlib testConfig [] true oneEntryCache
      wellFormed_oneEntryCache (ascii "/README.md") _ emptyResponseWriter rfl).2⟩


/-! ## The eviction loop: what is removed, and when -/

theorem mapLookup_mapDelete_ne {k k' : GoString} (h : k ≠ k')
    (t : List (GoString × cacheEntry)) :
    mapLookup k (mapDelete k' t) = mapLookup k t := by
  induction t with
  | nil => rfl
  | cons p t ih =>
    obtain ⟨a, e⟩ := p
    by_cases ha : a = k'
    · have hak : ¬ a = k := fun e' => h (e'.symm.trans ha)
      have hd : mapDelete k' ((a, e) :: t) = mapDelete k' t := by simp [mapDelete, ha]
      rw [hd, ih]
      simp [mapLookup, hak]
    · have hd : mapDelete k' ((a, e) :: t) = (a, e) :: mapDelete k' t := by
        simp [mapDelete, ha]
      rw [hd]
      by_cases hak : a = k
      · simp [mapLookup, hak]
      · simp [mapLookup, hak, ih]

theorem evictLoopLog_spec (capacity n : Int) (ks : List GoString) (c : cache)
    (h : WellFormed c) :
    ∃ log c', evictLoopLog capacity n ks c = some (log, c') ∧
      evictLoop capacity n ks c = some c' ∧ c'.table.Sublist c.table ∧
      (∀ ev ∈ log, ev.2.size + n > capacity ∧ ev.2.table.Sublist c.table ∧
        (∃ e, mapLookup ev.1 ev.2.table = some e) ∧ mapLookup ev.1 c'.table = none) ∧
      (∀ k, k ∉ log.map Prod.fst → mapLookup k c'.table = mapLookup k c.table) ∧
      (c.size + n ≤ capacity → log = []) := by
  induction ks generalizing c with
  | nil =>
    exact ⟨[], c, rfl, rfl, List.Sublist.refl _, by simp, fun _ _ => rfl, fun _ => rfl⟩
  | cons k ks ih =>
    cases hl : mapLookup k c.table with
    | none =>
      obtain ⟨log, c', hlog, hrun, hsub, hev, hkeep, hfit⟩ := ih c h
      exact ⟨log, c', by simp [evictLoopLog, hl, hlog], by simp [evictLoop, hl, hrun],
        hsub, hev, hkeep, hfit⟩
    | some delEntry =>
      by_cases hfits : c.size + n ≤ capacity
      · exact ⟨[], c, by simp [evictLoopLog, hl, hfits], by simp [evictLoop, hl, hfits],
          List.Sublist.refl _, by simp, fun _ _ => rfl, fun _ => rfl⟩
      · have hmem := mapLookup_mem hl
        obtain ⟨d, hd⟩ : ∃ d, delEntry.data = some d :=
          Option.ne_none_iff_exists'.mp (h.hasData _ hmem)
        have hname : delEntry.filename = k := h.keyed _ hmem
        have hwf1 : WellFormed ⟨mapDelete k c.table, c.size - d.length⟩ := h.delete hl hd
        obtain ⟨log, c', hlog, hrun, hsub, hev, hkeep, _⟩ := ih _ hwf1
        have hsub1 : (mapDelete k c.table).Sublist c.table := mapDelete_sublist k c.table
        refine ⟨(k, c) :: log, c',
          by simp [evictLoopLog, hl, hfits, hd, derefLen, hname, hlog],
          by simp [evictLoop, hl, hfits, hd, derefLen, hname, hrun],
          hsub.trans hsub1, ?_, ?_, fun hc => absurd hc hfits⟩
        · intro ev hevmem
          rcases List.mem_cons.mp hevmem with rfl | hin
          · exact ⟨not_le.mp hfits, List.Sublist.refl _, ⟨delEntry, hl⟩,
              mapLookup_none_of_sublist hsub (mapLookup_mapDelete_self _ _)⟩
          · obtain ⟨h1, h2, h3, h4⟩ := hev ev hin
            exact ⟨h1, h2.trans hsub1, h3, h4⟩
        · intro k0 hk0
          simp only [List.map_cons, List.mem_cons, not_or] at hk0
          rw [hkeep k0 hk0.2]
          exact mapLookup_mapDelete_ne hk0.1 c.table

/-- C25: in a write of `bytes` under `name` with `len(bytes) <= capacity` on a well-formed
store (so `size` is the sum of the entries' lengths), after the entry previously stored
under `name` has been taken out, the loop removes an entry only when, just before the
removal, `size + len(bytes) > capacity`; every entry it removes is stored under another
name, every entry it does not remove is kept unchanged, and when the loop ends
`size + len(bytes) <= capacity`; when the new bytes already fit nothing is removed and
every other entry is kept unchanged. -/
theorem C25_eviction_guard (capacity : Int) (ord : List GoString) (c : cache)
    (hwf : WellFormed c) (name : GoString) (bytes : List UInt8)
    (hfit : (bytes.length : Int) ≤ capacity) :
    ∃ c1 log c2 c',
      removeOld name c = some c1 ∧
      evictLoopLog capacity bytes.length (rangeKeys ord c1.table) c1 = some (log, c2) ∧
      evictLoop capacity bytes.length (rangeKeys ord c1.table) c1 = some c2 ∧
      cacheWrite capacity ord c ⟨WRITE, name, some bytes⟩ = some c' ∧
      c'.table = (name, ⟨name, some bytes, true, -1, -1⟩) :: c2.table ∧
      c'.size = c2.size + bytes.length ∧
      (∀ ev ∈ log, ev.2.size + bytes.length > capacity ∧ ev.1 ≠ name ∧
        (∃ e, mapLookup ev.1 ev.2.table = some e) ∧ mapLookup ev.1 c2.table = none) ∧
      c2.size + bytes.length ≤ capacity ∧
      (∀ k, k ≠ name → k ∉ log.map Prod.fst →
        mapLookup k c'.table = mapLookup k c.table) ∧
      (c1.size + bytes.length ≤ capacity →
        log = [] ∧ ∀ k, k ≠ name → mapLookup k c'.table = mapLookup k c.table) := by
  obtain ⟨c1, hrem, hwf1, htab1, _⟩ := removeOld_spec name c hwf
  obtain ⟨log, c2, hlog, hrun, hsub, hev, hkeep, hnone⟩ :=
    evictLoopLog_spec capacity bytes.length (rangeKeys ord c1.table) c1 hwf1
  obtain ⟨c2', hw, _, _, hbound, _⟩ := cacheWrite_spec capacity ord c hwf WRITE name bytes hfit
  have hnot1 : mapLookup name c1.table = none := by
    rw [htab1]; exact mapLookup_mapDelete_self _ _
  have hnot : name ∉ mapKeys c2.table :=
    (mapLookup_eq_none_iff _ _).mp (mapLookup_none_of_sublist hsub hnot1)
  have hng : ¬ ((bytes.length : Int) > capacity) := not_lt.mpr hfit
  have hw2 : cacheWrite capacity ord c ⟨WRITE, name, some bytes⟩ =
      some ⟨(name, ⟨name, some bytes, true, -1, -1⟩) :: c2.table,
        c2.size + bytes.length⟩ := by
    simp [cacheWrite, derefLen, hng, hrem, hrun, mapAssign, mapDelete_of_not_mem hnot]
  have hsize : c2.size = c2'.size := by
    rw [hw2] at hw
    simp only [Option.some.injEq, cache.mk.injEq] at hw
    omega
  have hother : ∀ k, k ≠ name → k ∉ log.map Prod.fst →
      mapLookup k ((name, (⟨name, some bytes, true, -1, -1⟩ : cacheEntry)) :: c2.table) =
        mapLookup k c.table := by
    intro k hk hklog
    have hne : ¬ name = k := fun e => hk e.symm
    simp only [mapLookup, hne, if_false]
    rw [hkeep k hklog, htab1]
    exact mapLookup_mapDelete_ne hk c.table
  refine ⟨c1, log, c2, _, hrem, hlog, hrun, hw2, rfl, rfl, ?_, by rw [hsize]; exact hbound,
    hother, fun hfits => ?_⟩
  · intro ev hevmem
    obtain ⟨h1, h2, ⟨e, h3⟩, h4⟩ := hev ev hevmem
    refine ⟨h1, fun hk => ?_, ⟨e, h3⟩, h4⟩
    have : mapLookup ev.1 ev.2.table = none := by
      rw [hk]; exact mapLookup_none_of_sublist h2 hnot1
    rw [this] at h3
    exact absurd h3 (by simp)
  · have hl := hnone hfits
    refine ⟨hl, fun k hk => hother k hk ?_⟩
    rw [hl]
    simp

theorem C25_eviction_guard_witness :
    WellFormed oneEntryCache ∧ (([7, 8, 9] : List UInt8).length : Int) ≤ 4 ∧
    ∃ c1 log c2 c',
      removeOld (ascii "b") oneEntryCache = some c1 ∧
      evictLoopLog 4 ([7, 8, 9] : List UInt8).length (rangeKeys [] c1.table) c1 =
        some (log, c2) ∧
      evictLoop 4 ([7, 8, 9] : List UInt8).length (rangeKeys [] c1.table) c1 = some c2 ∧
      cacheWrite 4 [] oneEntryCache ⟨WRITE, ascii "b", some [7, 8, 9]⟩ = some c' ∧
      c'.table = (ascii "b", ⟨ascii "b", some [7, 8, 9], true, -1, -1⟩) :: c2.table ∧
      c'.size = c2.size + ([7, 8, 9] : List UInt8).length ∧
      (∀ ev ∈ log, ev.2.size + ([7, 8, 9] : List UInt8).length > 4 ∧ ev.1 ≠ ascii "b" ∧
        (∃ e, mapLookup ev.1 ev.2.table = some e) ∧ mapLookup ev.1 c2.table = none) ∧
      c2.size + ([7, 8, 9] : List UInt8).length ≤ 4 ∧
      (∀ k, k ≠ ascii "b" → k ∉ log.map Prod.fst →
        mapLookup k c'.table = mapLookup k oneEntryCache.table) ∧
      (c1.size + ([7, 8, 9] : List UInt8).length ≤ 4 →
        log = [] ∧ ∀ k, k ≠ ascii "b" →
          mapLookup k c'.table = mapLookup k oneEntryCache.table) :=
  ⟨wellFormed_oneEntryCache, by decide,
    C25_eviction_guard 4 [] oneEntryCache wellFormed_oneEntryCache (ascii "b") [7, 8, 9]
      (by decide)⟩

/-- C30: in every store reachable from the empty one, each entry stored under a key `k`
records the filename `k`; so, when the eviction loop visits `k` with the store over
capacity, deleting by the recorded filename removes exactly the entry under `k` (every
other key keeps its entry) and `size` and the sum of the lengths both go down by exactly
the length of that entry's bytes. -/
theorem C30_entries_keyed (capacity : Int) (ops : List StoreOp) :
    ∃ c, runStore capacity emptyCache ops = some c ∧
      (∀ k e, mapLookup k c.table = some e → e.filename = k) ∧
      (∀ k e (n : Int) ks, mapLookup k c.table = some e → c.size + n > capacity →
        ∃ d, e.data = some d ∧
          evictLoop capacity n (k :: ks) c =
            evictLoop capacity n ks ⟨mapDelete e.filename c.table, c.size - d.length⟩ ∧
          mapLookup k (mapDelete e.filename c.table) = none ∧
          (∀ k', k' ≠ k →
            mapLookup k' (mapDelete e.filename c.table) = mapLookup k' c.table) ∧
          totalLength (mapDelete e.filename c.table) = totalLength c.table - d.length) := by
  obtain ⟨c, hrun, hwf, _⟩ := runStore_spec capacity ops emptyCache wellFormed_emptyCache
  refine ⟨c, hrun, fun k e hl => hwf.keyed _ (mapLookup_mem hl), ?_⟩
  intro k e n ks hl hover
  have hname : e.filename = k := hwf.keyed _ (mapLookup_mem hl)
  obtain ⟨d, hd⟩ : ∃ d, e.data = some d :=
    Option.ne_none_iff_exists'.mp (hwf.hasData _ (mapLookup_mem hl))
  have hnfit : ¬ (c.size + n ≤ capacity) := not_le.mpr hover
  refine ⟨d, hd, by simp [evictLoop, hl, hnfit, hd, derefLen], ?_, ?_, ?_⟩
  · rw [hname]; exact mapLookup_mapDelete_self _ _
  · intro k' hk'
    rw [hname]; exact mapLookup_mapDelete_ne hk' _
  · rw [hname]; exact totalLength_mapDelete hwf.nodup hl hd


/-! ## The sends on the reply channel -/

end CachedFileServer
